import Mathlib

/-! hades: the skip-list index (`index/skiplist.go`)

A shallow embedding of the skip list and of its snapshot iterator.

* Go's heap of `*Node` is a list of cells; a `*Node` is `none` (nil) or `some a`,
  the index of a cell. A fresh node is appended at the end, nothing is ever freed.
* A key is a list of bytes; a nil slice and an empty slice are the same key, as
  they are for `bytes.Compare` and `bytes.Equal`. Keys are values: the embedding
  does not model a caller that overwrites a slice it has handed to `Put`.
* A function returns `none` where the Go code does not return normally: a nil
  dereference, an index out of range, a failed type assertion, or a loop that
  does not terminate (the fuel of a pointer walk is the number of allocated
  cells: a walk that visits more cells than exist has come back to one and
  loops for ever).
* `level` (int16) and indices are naturals. `length` (int) is an integer that
  does not wrap: a wrap needs 2^63 live nodes. `currIndex` (int) is a 64-bit
  signed integer: `Next` wraps from `maxInt` to `minInt`, as `s.currIndex += 1`
  does. The length of a slice is an `int`, so a sequence of the iterator has at
  most `maxInt` elements.
* The lock is not modelled: every operation runs alone from start to end.
-/

namespace Hades

/-- One byte of a key. -/
abbrev Byte := Fin 256

/-- The function `bytes.Compare`: -1, 0 or 1 by lexicographic byte order. -/
def bytesCompare : List Byte → List Byte → Int
  | [], [] => 0
  | [], _ :: _ => -1
  | _ :: _, [] => 1
  | a :: as, b :: bs =>
    if a < b then -1 else if b < a then 1 else bytesCompare as bs

/-- The function `bytes.Equal`. -/
def bytesEqual (a b : List Byte) : Bool := a == b

/-- Modelled from the spec: `data.LogRecordPos` is declared outside the index
package; the spec calls it an opaque position descriptor that the index stores
and returns verbatim. A `*data.LogRecordPos` is nil (`none`) or a reference. -/
abbrev LogRecordPosPtr := Option Nat

/-- The constant `maxLevel`. -/
def maxLevel : Nat := 18

/-- The struct `Node`. The field `value` is an `interface{}`: `none` is the nil
interface, `some p` an interface holding the `*data.LogRecordPos` `p`. -/
structure Node where
  key : List Byte
  value : Option LogRecordPosPtr
  forward : List (Option Nat)
  deriving DecidableEq, Repr

/-- The struct `SkipList`, together with the heap its pointers live in. -/
structure SkipList where
  heap : List Node
  head : Nat
  level : Nat
  length : Int
  deriving DecidableEq, Repr

/-- The function `newNode`: `make([]*Node, level)` is `level` nil pointers. -/
def newNode (key : List Byte) (value : Option LogRecordPosPtr) (level : Nat) : Node :=
  { key := key, value := value, forward := List.replicate level none }

/-- The function `NewSkipList`. -/
def NewSkipList : SkipList :=
  { heap := [newNode [] none maxLevel], head := 0, level := 1, length := 0 }

/-- The trial of `randomLevel` on one draw `v` of `rand.Int31()`:
`float32(v & 0xFFFF) < probability * 0xFFFF`, that is `v & 0xFFFF < 32767.5`
(both sides are exact in float32). -/
def levelTrial (v : Nat) : Bool := decide (2 * (v % 65536) < 65535)

/-- The loop of `randomLevel` from draw number `n` on; it ends at the latest
when `level` reaches `maxLevel`, so `maxLevel` rounds of fuel are never used up. -/
def randomLevelLoop (rnd : Nat → Nat) : Nat → Nat → Nat → Nat
  | 0, _, level => level
  | fuel + 1, n, level =>
    if levelTrial (rnd n) && decide (level < maxLevel) then
      randomLevelLoop rnd fuel (n + 1) (level + 1)
    else level

/-- The value of the local variable `level` when the loop of `randomLevel` ends. -/
def randomLevelComputed (rnd : Nat → Nat) : Nat := randomLevelLoop rnd maxLevel 0 1

/-- The function `randomLevel`, over the sequence `rnd` of draws: it runs the
loop and then returns `maxLevel`, not the level it has computed. -/
def randomLevel (rnd : Nat → Nat) : Nat :=
  let _level := randomLevelComputed rnd
  maxLevel

/-- The inner loop of `Put`, `Get` and `Delete` at level `i`:
`for current.forward[i] != nil && bytes.Compare(current.forward[i].key, key) < 0`. -/
def advance (heap : List Node) (key : List Byte) (i : Nat) : Nat → Nat → Option Nat
  | 0, _ => none
  | fuel + 1, current =>
    match heap[current]? with
    | none => none
    | some c =>
      match c.forward[i]? with
      | none => none
      | some none => some current
      | some (some nx) =>
        match heap[nx]? with
        | none => none
        | some nd =>
          if bytesCompare nd.key key < 0 then advance heap key i fuel nx
          else some current

/-- The outer loop of `Put` and `Delete`, `for i := sl.level - 1; i >= 0; i--`,
with `n = i + 1`: it returns the last `current` and the filled `update`. -/
def findPath (heap : List Node) (key : List Byte) (fuel : Nat) :
    Nat → Nat → List (Option Nat) → Option (Nat × List (Option Nat))
  | 0, current, update => some (current, update)
  | i + 1, current, update =>
    match advance heap key i fuel current with
    | none => none
    | some c =>
      if i < update.length then findPath heap key fuel i c (update.set i (some c))
      else none

/-- The loop `for i := sl.level; i < level; i++ { update[i] = sl.head }` of `Put`,
with `n` rounds left. -/
def raisePath (head : Nat) : Nat → Nat → List (Option Nat) → Option (List (Option Nat))
  | _, 0, update => some update
  | i, n + 1, update =>
    if i < update.length then raisePath head (i + 1) n (update.set i (some head))
    else none

/-- The splice loop of `Put`, `for i := int16(0); i < level; i++`, with `n`
rounds left: `newNode.forward[i] = update[i].forward[i]` and then
`update[i].forward[i] = newNode`. -/
def spliceLoop (newId : Nat) (update : List (Option Nat)) :
    Nat → Nat → List Node → Option (List Node)
  | _, 0, heap => some heap
  | i, n + 1, heap =>
    match update[i]? with
    | none => none
    | some none => none
    | some (some u) =>
      match heap[u]? with
      | none => none
      | some un =>
        match un.forward[i]? with
        | none => none
        | some nxt =>
          match heap[newId]? with
          | none => none
          | some nn =>
            if i < nn.forward.length then
              let heap1 := heap.set newId { nn with forward := nn.forward.set i nxt }
              match heap1[u]? with
              | none => none
              | some un1 =>
                if i < un1.forward.length then
                  spliceLoop newId update (i + 1) n
                    (heap1.set u { un1 with forward := un1.forward.set i (some newId) })
                else none
            else none

/-- The insertion branch of `Put` (from `level := randomLevel()` on). -/
def putInsert (sl : SkipList) (key : List Byte) (pos : LogRecordPosPtr)
    (rnd : Nat → Nat) (update : List (Option Nat)) : Option (SkipList × LogRecordPosPtr) :=
  let level := randomLevel rnd
  let raised : Option (List (Option Nat) × Nat) :=
    if level > sl.level then
      (raisePath sl.head sl.level (level - sl.level) update).map (fun u => (u, level))
    else some (update, sl.level)
  match raised with
  | none => none
  | some (update1, slLevel) =>
    let newId := sl.heap.length
    match spliceLoop newId update1 0 level (sl.heap ++ [newNode key (some pos) level]) with
    | none => none
    | some heap1 =>
      some ({ heap := heap1, head := sl.head, level := slLevel, length := sl.length + 1 }, none)

/-- The method `SkipList.Put`; `rnd` is the sequence of draws `randomLevel` sees. -/
def Put (sl : SkipList) (key : List Byte) (pos : LogRecordPosPtr) (rnd : Nat → Nat) :
    Option (SkipList × LogRecordPosPtr) :=
  match findPath sl.heap key sl.heap.length sl.level sl.head (List.replicate maxLevel none) with
  | none => none
  | some (current, update) =>
    match sl.heap[current]? with
    | none => none
    | some c =>
      match c.forward[0]? with
      | none => none
      | some none => putInsert sl key pos rnd update
      | some (some nx) =>
        match sl.heap[nx]? with
        | none => none
        | some nd =>
          if bytesEqual nd.key key then
            match nd.value with
            | none => none
            | some oldVal =>
              some ({ sl with heap := sl.heap.set nx { nd with value := some pos } }, oldVal)
          else putInsert sl key pos rnd update

/-- The loop of `Get`, `for i := sl.level - 1; i >= 0; i--`, with `n = i + 1`. -/
def getLoop (heap : List Node) (key : List Byte) (fuel : Nat) :
    Nat → Nat → Option LogRecordPosPtr
  | 0, _ => some none
  | i + 1, current =>
    match advance heap key i fuel current with
    | none => none
    | some c =>
      match heap[c]? with
      | none => none
      | some cn =>
        match cn.forward[i]? with
        | none => none
        | some none => getLoop heap key fuel i c
        | some (some nx) =>
          match heap[nx]? with
          | none => none
          | some nd =>
            if bytesEqual nd.key key then nd.value
            else getLoop heap key fuel i c

/-- The method `SkipList.Get`. -/
def Get (sl : SkipList) (key : List Byte) : Option LogRecordPosPtr :=
  getLoop sl.heap key sl.heap.length sl.level sl.head

/-- The unlink loop of `Delete`, `for i := int16(0); i < sl.level; i++`, with `n`
rounds left; it breaks at the first level whose predecessor does not point at
`target`. -/
def unlinkLoop (target : Nat) (update : List (Option Nat)) :
    Nat → Nat → List Node → Option (List Node)
  | _, 0, heap => some heap
  | i, n + 1, heap =>
    match update[i]? with
    | none => none
    | some none => none
    | some (some u) =>
      match heap[u]? with
      | none => none
      | some un =>
        match un.forward[i]? with
        | none => none
        | some f =>
          if f ≠ some target then some heap
          else
            match heap[target]? with
            | none => none
            | some t =>
              match t.forward[i]? with
              | none => none
              | some tf =>
                unlinkLoop target update (i + 1) n
                  (heap.set u { un with forward := un.forward.set i tf })

/-- The method `SkipList.Delete`. -/
def Delete (sl : SkipList) (key : List Byte) : Option (SkipList × LogRecordPosPtr × Bool) :=
  match findPath sl.heap key sl.heap.length sl.level sl.head (List.replicate maxLevel none) with
  | none => none
  | some (current, update) =>
    match sl.heap[current]? with
    | none => none
    | some c =>
      match c.forward[0]? with
      | none => none
      | some none => some (sl, none, false)
      | some (some target) =>
        match sl.heap[target]? with
        | none => none
        | some nd =>
          if bytesEqual nd.key key then
            match unlinkLoop target update 0 sl.level sl.heap with
            | none => none
            | some heap1 =>
              match heap1[target]? with
              | none => none
              | some t =>
                match t.value with
                | none => none
                | some v => some ({ sl with heap := heap1, length := sl.length - 1 }, v, true)
          else some (sl, none, false)

/-- The method `SkipList.Size`. -/
def Size (sl : SkipList) : Int := sl.length

/-! ## The representation invariant -/

/-- A linked node as the invariant sees it: its address, key and value. -/
structure Entry where
  id : Nat
  key : List Byte
  value : Option LogRecordPosPtr
  deriving DecidableEq, Repr

/-- The address of the first entry of `es`, or `t` when there is none. -/
def nextOr : List Entry → Option Nat → Option Nat
  | [], t => t
  | e :: _, _ => some e.id

/-- The cell of entry `e` when its successor, at every level, is `nx`. -/
def cell (e : Entry) (nx : Option Nat) : Node :=
  { key := e.key, value := e.value, forward := List.replicate maxLevel nx }

/-- The entries `es` are in the heap, each linked at every level to the next one,
the last one to `t`. -/
def LinkedTo (heap : List Node) : List Entry → Option Nat → Prop
  | [], _ => True
  | e :: es, t => heap[e.id]? = some (cell e (nextOr es t)) ∧ LinkedTo heap es t

/-- The head sentinel as an entry. -/
def headEntry (sl : SkipList) : Entry := { id := sl.head, key := [], value := none }

/-- The last entry of `c :: l`. -/
def lastOf : Entry → List Entry → Entry
  | c, [] => c
  | _, e :: l => lastOf e l

/-- All but the last entry of `c :: l`. -/
def initOf : Entry → List Entry → List Entry
  | _, [] => []
  | c, e :: l => c :: initOf e l

/-- The test of the inner loop on an entry. -/
def below (key : List Byte) (e : Entry) : Bool := decide (bytesCompare e.key key < 0)

/-- The entries the search walks past. -/
def lower (key : List Byte) (es : List Entry) : List Entry := es.takeWhile (below key)

/-- The entries from the one the search stops in front of. -/
def upper (key : List Byte) (es : List Entry) : List Entry := es.dropWhile (below key)

/-- What `update` is after `n` rounds of `findPath` that all end on `p`. -/
def setAll (p : Nat) : Nat → List (Option Nat) → List (Option Nat)
  | 0, update => update
  | i + 1, update => setAll p i (update.set i (some p))

/-- The representation invariant: the list is the head followed by the entries
`es`, linked in this order at every one of the `maxLevel` levels, with keys
strictly increasing. -/
structure Inv (sl : SkipList) (es : List Entry) : Prop where
  linked : LinkedTo sl.heap (headEntry sl :: es) none
  nodup : (sl.head :: es.map Entry.id).Nodup
  typed : ∀ e ∈ es, e.value ≠ none
  sorted : es.Pairwise (fun a b => bytesCompare a.key b.key < 0)
  size : sl.length = es.length
  lvl : sl.level = maxLevel ∨ (sl.level = 1 ∧ es = [])
  room : es.length < sl.heap.length

/-- What `Get` finds in front of the place where its walk stops. -/
def firstHit (key : List Byte) : List Entry → Option LogRecordPosPtr
  | [] => some none
  | e :: _ => if e.key = key then e.value else some none

/-- What `Get` returns on a list with entries `es`. -/
def absGet (es : List Entry) (key : List Byte) : Option LogRecordPosPtr :=
  firstHit key (upper key es)

/-- The states reachable from `NewSkipList()` by `Put` and `Delete` calls. -/
inductive Reachable : SkipList → Prop
  | new : Reachable NewSkipList
  | put {sl sl1 : SkipList} {key : List Byte} {pos old : LogRecordPosPtr} {rnd : Nat → Nat} :
      Reachable sl → Put sl key pos rnd = some (sl1, old) → Reachable sl1
  | delete {sl sl1 : SkipList} {key : List Byte} {old : LogRecordPosPtr} {existed : Bool} :
      Reachable sl → Delete sl key = some (sl1, old, existed) → Reachable sl1

/-! ## What an observer sees of a list -/

/-- The nodes met by following `forward[i]` links from the pointer `p` up to nil,
each with its address. -/
def chainFrom (heap : List Node) (i : Nat) : Nat → Option Nat → Option (List (Nat × Node))
  | _, none => some []
  | 0, some _ => none
  | fuel + 1, some p =>
    match heap[p]? with
    | none => none
    | some nd =>
      match nd.forward[i]? with
      | none => none
      | some nx => (chainFrom heap i fuel nx).map (fun rest => (p, nd) :: rest)

/-- The chain of level `i`: the nodes met by following `forward[i]` links from the
head sentinel (the head itself is not part of it). -/
def chainAt (sl : SkipList) (i : Nat) : Option (List (Nat × Node)) :=
  match sl.heap[sl.head]? with
  | none => none
  | some h =>
    match h.forward[i]? with
    | none => none
    | some p => chainFrom sl.heap i sl.heap.length p

/-- The keys of the chain of level `i`, in chain order. -/
def keysAt (sl : SkipList) (i : Nat) : Option (List (List Byte)) :=
  (chainAt sl i).map (fun ch => ch.map (fun x => x.2.key))

/-- The addresses of the nodes of the chain of level `i`, in chain order. -/
def idsAt (sl : SkipList) (i : Nat) : Option (List Nat) :=
  (chainAt sl i).map (fun ch => ch.map (fun x => x.1))

/-- The cells of the entries `es`, each with its address. -/
def cells : List Entry → List (Nat × Node)
  | [] => []
  | e :: es => (e.id, cell e (nextOr es none)) :: cells es

/-- A sample list: `Put("b", 1)` on a new list. -/
def demoOne : SkipList :=
  ((Put NewSkipList [98] (some 1) (fun _ => 0)).getD (NewSkipList, none)).1

/-- A sample list: `Put("b", 1)` and then `Put("", 2)`, the empty key, on a new list. -/
def demoTwo : SkipList :=
  ((Put demoOne [] (some 2) (fun _ => 40000)).getD (NewSkipList, none)).1

/-! ## The snapshot iterator -/

/-- The struct `Item` of the index package: a key and its position. -/
structure Item where
  key : List Byte
  pos : LogRecordPosPtr
  deriving DecidableEq, Repr

/-- The struct `skiplistIterator`; `values` is a `[]*Item`, so an element may be
nil (`none`). -/
structure skiplistIterator where
  currIndex : Int
  reverse : Bool
  values : List (Option Item)
  deriving DecidableEq, Repr

/-- The loop of `sort.Search` of the Go standard library,
`for i < j { h := int(uint(i+j) >> 1); if !f(h) { i = h + 1 } else { j = h } }`,
followed by `return i`; `f` returns `none` when the closure faults. Every round
makes `j - i` smaller, so `j - i` rounds of fuel are never used up. -/
def searchLoop (f : Nat → Option Bool) : Nat → Nat → Nat → Option Nat
  | 0, i, j => if i < j then none else some i
  | fuel + 1, i, j =>
    if i < j then
      match f ((i + j) / 2) with
      | none => none
      | some false => searchLoop f fuel ((i + j) / 2 + 1) j
      | some true => searchLoop f fuel i ((i + j) / 2)
    else some i

/-- The function `sort.Search(n, f)` of the Go standard library. -/
def Search (n : Nat) (f : Nat → Option Bool) : Option Nat := searchLoop f n 0 n

/-- The expression `s.values[i].key`: it faults when `i` is out of range or the
element is nil. -/
def skiplistIterator.keyAt (s : skiplistIterator) (i : Nat) : Option (List Byte) :=
  match s.values[i]? with
  | some (some item) => some item.key
  | _ => none

/-- The method `skiplistIterator.Seek`. -/
def skiplistIterator.Seek (s : skiplistIterator) (key : List Byte) : Option skiplistIterator :=
  if s.reverse then
    match Search s.values.length
        (fun i => (s.keyAt i).map (fun k => decide (bytesCompare k key ≤ 0))) with
    | none => none
    | some n => some { s with currIndex := (n : Int) }
  else
    match Search s.values.length
        (fun i => (s.keyAt i).map (fun k => decide (bytesCompare k key ≥ 0))) with
    | none => none
    | some n => some { s with currIndex := (n : Int) }

/-- The method `skiplistIterator.Valid`. -/
def skiplistIterator.Valid (s : skiplistIterator) : Bool :=
  decide (s.currIndex < (s.values.length : Int))

/-- The materialized sequence over the keys "a", "c", "e". -/
def aceValues : List (Option Item) :=
  [some ⟨[97], some 1⟩, some ⟨[99], some 2⟩, some ⟨[101], some 3⟩]

/-- The materialized sequence over the keys "e", "c", "a". -/
def ecaValues : List (Option Item) :=
  [some ⟨[101], some 3⟩, some ⟨[99], some 2⟩, some ⟨[97], some 1⟩]

/-! ## The cursor of the iterator -/

/-- The two run-time faults of an element read `s.values[s.currIndex].key`. -/
inductive Fault where
  | indexOutOfRange
  | nilDereference
  deriving DecidableEq, Repr

/-- The largest value of a Go `int` (64 bits). -/
def maxInt : Int := 9223372036854775807

/-- The smallest value of a Go `int` (64 bits). -/
def minInt : Int := -9223372036854775808

/-- The value of an `int` expression whose mathematical value is `x`: Go's signed
arithmetic wraps around modulo 2^64. -/
def wrapInt (x : Int) : Int :=
  (x + 9223372036854775808) % 18446744073709551616 - 9223372036854775808

/-- The method `skiplistIterator.Next`: `s.currIndex += 1` on an `int`. -/
def skiplistIterator.Next (s : skiplistIterator) : skiplistIterator :=
  { s with currIndex := wrapInt (s.currIndex + 1) }

/-- The method `skiplistIterator.Rewind`. -/
def skiplistIterator.Rewind (s : skiplistIterator) : skiplistIterator :=
  { s with currIndex := 0 }

/-- The expression `s.values[s.currIndex]`, dereferenced: the index must be in
`0 .. len(values) - 1` and the element must not be nil. -/
def skiplistIterator.current (s : skiplistIterator) : Except Fault Item :=
  if s.currIndex < 0 then Except.error Fault.indexOutOfRange
  else
    match s.values[s.currIndex.toNat]? with
    | none => Except.error Fault.indexOutOfRange
    | some none => Except.error Fault.nilDereference
    | some (some item) => Except.ok item

/-- The method `skiplistIterator.Key`. -/
def skiplistIterator.Key (s : skiplistIterator) : Except Fault (List Byte) :=
  match s.current with
  | Except.error f => Except.error f
  | Except.ok item => Except.ok item.key

/-- The method `skiplistIterator.Value`. -/
def skiplistIterator.Value (s : skiplistIterator) : Except Fault LogRecordPosPtr :=
  match s.current with
  | Except.error f => Except.error f
  | Except.ok item => Except.ok item.pos

/-- The loop `for s.Valid() { read s.Key(), s.Value(); s.Next() }`: the pairs it
reads, in order; `none` when a read faults or the fuel runs out. -/
def traverseLoop : Nat → skiplistIterator → Option (List (List Byte × LogRecordPosPtr))
  | 0, s => if s.Valid then none else some []
  | fuel + 1, s =>
    if s.Valid then
      match s.Key, s.Value with
      | Except.ok k, Except.ok v => (traverseLoop fuel s.Next).map (fun rest => (k, v) :: rest)
      | _, _ => none
    else some []

/-- The full traversal `s.Rewind(); for s.Valid() { s.Key(), s.Value(); s.Next() }`. -/
def fullTraversal (fuel : Nat) (s : skiplistIterator) :
    Option (List (List Byte × LogRecordPosPtr)) :=
  traverseLoop fuel s.Rewind

/-- The iterator states reachable from a construction over `vs` (cursor 0) by
`Rewind`, `Next` and `Seek` calls. -/
inductive IterReachable (vs : List (Option Item)) (rev : Bool) : skiplistIterator → Prop
  | init : IterReachable vs rev ⟨0, rev, vs⟩
  | rewind {s : skiplistIterator} : IterReachable vs rev s → IterReachable vs rev s.Rewind
  | next {s : skiplistIterator} : IterReachable vs rev s → IterReachable vs rev s.Next
  | seek {s s1 : skiplistIterator} {k : List Byte} :
      IterReachable vs rev s → s.Seek k = some s1 → IterReachable vs rev s1

/-- The iterator states reachable from a construction over `vs` (cursor 0) by
`Rewind`, `Next` and `Seek` calls, where `Next` is not called on the cursor
`maxInt`. -/
inductive IterBounded (vs : List (Option Item)) (rev : Bool) : skiplistIterator → Prop
  | init : IterBounded vs rev ⟨0, rev, vs⟩
  | rewind {s : skiplistIterator} : IterBounded vs rev s → IterBounded vs rev s.Rewind
  | next {s : skiplistIterator} :
      IterBounded vs rev s → s.currIndex < maxInt → IterBounded vs rev s.Next
  | seek {s s1 : skiplistIterator} {k : List Byte} :
      IterBounded vs rev s → s.Seek k = some s1 → IterBounded vs rev s1

/-! ## The construction of the iterator -/

/-- The loop of the closure `reverseSlice`,
`for i, j := 0, len(slice)-1; i < j; i, j = i+1, j-1 { slice[i], slice[j] = slice[j], slice[i] }`.
The index `i` starts at 0 and only grows; `j` is -1 for an empty slice. -/
def reverseLoop {α : Type} : Nat → Nat → Int → List α → Option (List α)
  | 0, i, j, slice => if (i : Int) < j then none else some slice
  | fuel + 1, i, j, slice =>
    if (i : Int) < j then
      match slice[i]?, slice[j.toNat]? with
      | some a, some b => reverseLoop fuel (i + 1) (j - 1) ((slice.set i b).set j.toNat a)
      | _, _ => none
    else some slice

/-- The closure `reverseSlice` of `newSkipListIterator`; the loop runs at most
`len(slice) / 2` rounds, so `len(slice)` rounds of fuel are never used up. -/
def reverseSlice {α : Type} (slice : List α) : Option (List α) :=
  reverseLoop slice.length 0 ((slice.length : Int) - 1) slice

/-- The copy loop of `newSkipListIterator`,
`for current != nil { item := &Item{...}; values = append(values, item) }`.
The body does not assign to `current`. -/
def copyLoop (heap : List Node) : Nat → Option Nat → List (Option Item) →
    Option (List (Option Item))
  | _, none, values => some values
  | 0, some _, _ => none
  | fuel + 1, some c, values =>
    match heap[c]? with
    | none => none
    | some nd =>
      match nd.value with
      | none => none
      | some pos => copyLoop heap fuel (some c) (values ++ [some ⟨nd.key, pos⟩])

/-- The function `newSkipListIterator`. The slice starts as
`make([]*Item, sl.Size())`, that is `Size()` nil elements. The copy loop has no
bound of its own, so the number of rounds it may take is the parameter `fuel`;
"it never returns" is "it returns `none` for every `fuel`". -/
def newSkipListIterator (fuel : Nat) (sl : SkipList) (reverse : Bool) :
    Option skiplistIterator :=
  if Size sl < 0 then none
  else
    match sl.heap[sl.head]? with
    | none => none
    | some h =>
      match h.forward[0]? with
      | none => none
      | some current =>
        match copyLoop sl.heap fuel current (List.replicate (Size sl).toNat none) with
        | none => none
        | some values =>
          if reverse then
            match reverseSlice values with
            | none => none
            | some reversed => some ⟨0, reverse, reversed⟩
          else some ⟨0, reverse, values⟩

/-- The method `SkipList.Iterator`. -/
def Iterator (fuel : Nat) (sl : SkipList) (reverse : Bool) : Option skiplistIterator :=
  newSkipListIterator fuel sl reverse

/-- What `Get` finds in the entries `es`: the value of the first entry with the
key, nil when there is none. -/
def lookup (key : List Byte) : List Entry → Option LogRecordPosPtr
  | [] => some none
  | e :: r => if e.key = key then e.value else lookup key r

/-- A sample list: `demoOne` after `Delete("b")`, which removes its only node. -/
def demoEmptied : SkipList :=
  ((Delete demoOne [98]).getD (NewSkipList, none, false)).1

/-- A sample list: `Put("a", 1)` and then `Put("b", 2)` on a new list. -/
def demoAB : SkipList :=
  ((Put ((Put NewSkipList [97] (some 1) (fun _ => 0)).getD (NewSkipList, none)).1
    [98] (some 2) (fun _ => 0)).getD (NewSkipList, none)).1

/-! ## Byte order -/

theorem bytesCompare_self (a : List Byte) : bytesCompare a a = 0 := by
  induction a with
  | nil => rfl
  | cons x xs ih => simp [bytesCompare, ih]

theorem bytesCompare_cons_lt (x y : Byte) (xs ys : List Byte) :
    bytesCompare (x :: xs) (y :: ys) < 0 ↔ x < y ∨ (x = y ∧ bytesCompare xs ys < 0) := by
  simp only [bytesCompare]
  rcases lt_trichotomy x y with h | h | h
  · simp [h]
  · subst h; simp
  · have h1 : ¬ x < y := lt_asymm h
    have h2 : x ≠ y := ne_of_gt h
    simp [h, h1, h2]

theorem bytesCompare_swap (a b : List Byte) : bytesCompare b a = - bytesCompare a b := by
  induction a generalizing b with
  | nil => cases b <;> simp [bytesCompare]
  | cons x xs ih =>
    cases b with
    | nil => simp [bytesCompare]
    | cons y ys =>
      simp only [bytesCompare]
      rcases lt_trichotomy x y with h | h | h
      · have h1 : ¬ y < x := lt_asymm h
        simp [h, h1]
      · subst h; simp [ih]
      · have h1 : ¬ x < y := lt_asymm h
        simp [h, h1]

theorem eq_of_bytesCompare_eq_zero {a b : List Byte} (h : bytesCompare a b = 0) : a = b := by
  induction a generalizing b with
  | nil => cases b with
    | nil => rfl
    | cons y ys => simp [bytesCompare] at h
  | cons x xs ih =>
    cases b with
    | nil => simp [bytesCompare] at h
    | cons y ys =>
      simp only [bytesCompare] at h
      by_cases h1 : x < y
      · simp [h1] at h
      · by_cases h2 : y < x
        · simp [h1, h2] at h
        · simp only [h1, h2, if_false] at h
          have hxy : x = y := le_antisymm (not_lt.mp h2) (not_lt.mp h1)
          rw [hxy, ih h]

theorem bytesCompare_eq_zero_iff (a b : List Byte) : bytesCompare a b = 0 ↔ a = b :=
  ⟨eq_of_bytesCompare_eq_zero, fun h => h ▸ bytesCompare_self a⟩

theorem bytesCompare_lt_irrefl (a : List Byte) : ¬ bytesCompare a a < 0 := by
  simp [bytesCompare_self]

theorem bytesCompare_lt_trans {a b c : List Byte} (h1 : bytesCompare a b < 0)
    (h2 : bytesCompare b c < 0) : bytesCompare a c < 0 := by
  induction a generalizing b c with
  | nil =>
    cases c with
    | nil => cases b <;> simp [bytesCompare] at h2
    | cons z zs => simp [bytesCompare]
  | cons x xs ih =>
    cases b with
    | nil => simp [bytesCompare] at h1
    | cons y ys =>
      cases c with
      | nil => simp [bytesCompare] at h2
      | cons z zs =>
        rw [bytesCompare_cons_lt] at h1 h2 ⊢
        rcases h1 with h1 | ⟨h1, h1r⟩
        · rcases h2 with h2 | ⟨h2, _⟩
          · exact Or.inl (lt_trans h1 h2)
          · exact Or.inl (h2 ▸ h1)
        · rcases h2 with h2 | ⟨h2, h2r⟩
          · exact Or.inl (h1 ▸ h2)
          · exact Or.inr ⟨h1.trans h2, ih h1r h2r⟩

theorem bytesCompare_gt_iff (a b : List Byte) : 0 < bytesCompare a b ↔ bytesCompare b a < 0 := by
  rw [bytesCompare_swap a b]; omega

/-- Trichotomy: a key that is neither below nor equal to another is above it. -/
theorem bytesCompare_lt_of_not {a b : List Byte} (h1 : ¬ bytesCompare a b < 0) (h2 : a ≠ b) :
    bytesCompare b a < 0 := by
  have h3 : bytesCompare a b ≠ 0 := fun h => h2 (eq_of_bytesCompare_eq_zero h)
  rw [bytesCompare_swap a b]; omega

theorem bytesEqual_iff (a b : List Byte) : bytesEqual a b = true ↔ a = b := by
  simp [bytesEqual]

/-! ## The search walk -/

theorem nextOr_append (l r : List Entry) (t : Option Nat) :
    nextOr (l ++ r) t = nextOr l (nextOr r t) := by
  cases l <;> rfl

theorem linkedTo_append {heap : List Node} {l r : List Entry} {t : Option Nat} :
    LinkedTo heap (l ++ r) t ↔ LinkedTo heap l (nextOr r t) ∧ LinkedTo heap r t := by
  induction l with
  | nil => simp [LinkedTo]
  | cons e l ih =>
    have h : LinkedTo heap (e :: l ++ r) t ↔
        (heap[e.id]? = some (cell e (nextOr (l ++ r) t)) ∧ LinkedTo heap (l ++ r) t) := Iff.rfl
    rw [h, ih, nextOr_append]
    exact and_assoc.symm

theorem linkedTo_congr {heap heap1 : List Node} {l : List Entry} {t : Option Nat}
    (h : ∀ e ∈ l, heap1[e.id]? = heap[e.id]?) (hl : LinkedTo heap l t) :
    LinkedTo heap1 l t := by
  induction l with
  | nil => trivial
  | cons e l ih =>
    refine ⟨?_, ih (fun x hx => h x (List.mem_cons_of_mem _ hx)) hl.2⟩
    rw [h e (List.mem_cons_self _ _)]; exact hl.1

theorem linkedTo_mem {heap : List Node} {l : List Entry} {t : Option Nat}
    (hl : LinkedTo heap l t) {e : Entry} (he : e ∈ l) :
    ∃ nx, heap[e.id]? = some (cell e nx) := by
  induction l with
  | nil => cases he
  | cons x l ih =>
    rcases List.mem_cons.mp he with h | h
    · subst h; exact ⟨_, hl.1⟩
    · exact ih hl.2 h

theorem linkedTo_lt {heap : List Node} {l : List Entry} {t : Option Nat}
    (hl : LinkedTo heap l t) {e : Entry} (he : e ∈ l) : e.id < heap.length := by
  obtain ⟨nx, h⟩ := linkedTo_mem hl he
  by_contra hc
  rw [List.getElem?_eq_none (not_lt.mp hc)] at h
  cases h

theorem initOf_append_lastOf (c : Entry) (l : List Entry) :
    initOf c l ++ [lastOf c l] = c :: l := by
  induction l generalizing c with
  | nil => rfl
  | cons e l ih => simp [initOf, lastOf, ih]

theorem cell_forward_get (e : Entry) (nx : Option Nat) {i : Nat} (hi : i < maxLevel) :
    (cell e nx).forward[i]? = some nx := by
  simp [cell, List.getElem?_replicate, hi]

/-- The inner loop walks past the entries with a smaller key and stops on the
last of them. -/
theorem advance_spec {heap : List Node} {key : List Byte} {i : Nat} (hi : i < maxLevel)
    (l hi_ : List Entry) (c : Entry) (fuel : Nat)
    (hl : LinkedTo heap (c :: l ++ hi_) none)
    (hlo : ∀ e ∈ l, below key e = true)
    (hup : ∀ e r, hi_ = e :: r → below key e = false)
    (hf : l.length < fuel) :
    advance heap key i fuel c.id = some (lastOf c l).id := by
  induction l generalizing c fuel with
  | nil =>
    obtain ⟨f, rfl⟩ : ∃ f, fuel = f + 1 := ⟨fuel - 1, by simp at hf; omega⟩
    cases hi_ with
    | nil =>
      have h1 : heap[c.id]? = some (cell c none) := hl.1
      simp only [advance, h1, cell_forward_get _ _ hi, lastOf]
    | cons e r =>
      have h1 : heap[c.id]? = some (cell c (some e.id)) := hl.1
      have h2 : heap[e.id]? = some (cell e (nextOr r none)) := hl.2.1
      have h3 := hup e r rfl
      simp only [below, decide_eq_false_iff_not] at h3
      simp only [advance, h1, h2, cell_forward_get _ _ hi, lastOf]
      simp [cell, h3]
  | cons e l ih =>
    obtain ⟨f, rfl⟩ : ∃ f, fuel = f + 1 := ⟨fuel - 1, by simp at hf; omega⟩
    have h1 : heap[c.id]? = some (cell c (some e.id)) := hl.1
    have h2 : heap[e.id]? = some (cell e (nextOr (l ++ hi_) none)) := hl.2.1
    have h3 := hlo e (List.mem_cons_self _ _)
    simp only [below, decide_eq_true_eq] at h3
    have h4 := ih e f hl.2 (fun x hx => hlo x (List.mem_cons_of_mem _ hx))
      (by simp at hf; omega)
    simp only [advance, h1, h2, cell_forward_get _ _ hi, lastOf]
    have h5 : bytesCompare (cell e (nextOr (l ++ hi_) none)).key key < 0 := h3
    rw [if_pos h5]
    exact h4

theorem setAll_length (p : Nat) (n : Nat) (u : List (Option Nat)) :
    (setAll p n u).length = u.length := by
  induction n generalizing u with
  | zero => rfl
  | succ n ih => simp [setAll, ih]

/-- The outer loop ends on the last entry with a smaller key, and has written
it at every level it has visited. -/
theorem findPath_spec {heap : List Node} {key : List Byte}
    (l hi_ : List Entry) (c : Entry) (fuel : Nat)
    (hl : LinkedTo heap (c :: l ++ hi_) none)
    (hlo : ∀ e ∈ l, below key e = true)
    (hup : ∀ e r, hi_ = e :: r → below key e = false)
    (hf : l.length < fuel) (n : Nat) (hn : n ≤ maxLevel) (hn0 : 0 < n)
    (u : List (Option Nat)) (hu : n ≤ u.length) :
    findPath heap key fuel n c.id u = some ((lastOf c l).id, setAll (lastOf c l).id n u) := by
  induction n generalizing c l u with
  | zero => omega
  | succ n ih =>
    have h1 := advance_spec (show n < maxLevel by omega) l hi_ c fuel hl hlo hup hf
    simp only [findPath, h1, setAll]
    rw [if_pos (by omega)]
    rcases Nat.eq_zero_or_pos n with h0 | h0
    · subst h0; rfl
    · have hl2 : LinkedTo heap (lastOf c l :: [] ++ hi_) none := by
        have h5 : c :: l ++ hi_ = initOf c l ++ (lastOf c l :: [] ++ hi_) := by
          rw [← List.append_assoc, initOf_append_lastOf]
        rw [h5] at hl
        exact (linkedTo_append.mp hl).2
      have h6 := ih [] (lastOf c l) hl2 (by simp) (by simp only [List.length_nil]; omega)
        (by omega) h0
        (u.set n (some (lastOf c l).id)) (by simp; omega)
      simpa [lastOf] using h6

theorem linkedTo_last {heap : List Node} {c : Entry} {l hi_ : List Entry} {t : Option Nat}
    (hl : LinkedTo heap (c :: l ++ hi_) t) :
    LinkedTo heap (initOf c l) (some (lastOf c l).id) ∧ LinkedTo heap (lastOf c l :: hi_) t := by
  have h5 : c :: l ++ hi_ = initOf c l ++ (lastOf c l :: hi_) := by
    rw [← initOf_append_lastOf c l]; simp
  rw [h5] at hl
  exact linkedTo_append.mp hl

theorem nextOr_cons (e : Entry) (r : List Entry) (t : Option Nat) :
    nextOr (e :: r) t = some e.id := rfl

theorem nextOr_nil (t : Option Nat) : nextOr [] t = t := rfl

/-- What the loop of `Get` returns: the value of the first entry whose key is not
smaller, when that key is the one looked for, and nil otherwise. -/
theorem getLoop_spec {heap : List Node} {key : List Byte}
    (l hi_ : List Entry) (c : Entry) (fuel : Nat)
    (hl : LinkedTo heap (c :: l ++ hi_) none)
    (hlo : ∀ e ∈ l, below key e = true)
    (hup : ∀ e r, hi_ = e :: r → below key e = false)
    (hf : l.length < fuel) (n : Nat) (hn : n ≤ maxLevel) (hn0 : 0 < n) :
    getLoop heap key fuel n c.id = firstHit key hi_ := by
  induction n generalizing c l with
  | zero => omega
  | succ n ih =>
    have h1 := advance_spec (show n < maxLevel by omega) l hi_ c fuel hl hlo hup hf
    have h2 := (linkedTo_last hl).2
    have h3 : heap[(lastOf c l).id]? = some (cell (lastOf c l) (nextOr hi_ none)) := h2.1
    have hrec : 0 < n → getLoop heap key fuel n (lastOf c l).id = firstHit key hi_ :=
      fun h0 => ih [] (lastOf c l) h2 (by simp) (by simp only [List.length_nil]; omega)
        (by omega) h0
    simp only [getLoop, h1, h3, cell_forward_get _ _ (show n < maxLevel by omega)]
    cases hi_ with
    | nil =>
      simp only [nextOr_nil]
      rcases Nat.eq_zero_or_pos n with h0 | h0
      · subst h0; rfl
      · exact hrec h0
    | cons e r =>
      have h4 : heap[e.id]? = some (cell e (nextOr r none)) := h2.2.1
      simp only [nextOr_cons, h4]
      by_cases hk : e.key = key
      · have hk2 : bytesEqual (cell e (nextOr r none)).key key = true :=
          (bytesEqual_iff _ _).mpr hk
        rw [if_pos hk2]
        simp [firstHit, hk, cell]
      · have hk2 : ¬ bytesEqual (cell e (nextOr r none)).key key = true :=
          fun hc => hk ((bytesEqual_iff _ _).mp hc)
        rw [if_neg hk2]
        rcases Nat.eq_zero_or_pos n with h0 | h0
        · subst h0; simp [getLoop, firstHit, hk]
        · exact hrec h0

theorem lower_append_upper (key : List Byte) (es : List Entry) :
    lower key es ++ upper key es = es :=
  List.takeWhile_append_dropWhile _ _

theorem below_of_mem_lower {key : List Byte} {es : List Entry} {e : Entry}
    (h : e ∈ lower key es) : below key e = true :=
  List.mem_takeWhile_imp h

theorem not_below_upper {key : List Byte} {es : List Entry} {e : Entry} {r : List Entry}
    (h : upper key es = e :: r) : below key e = false := by
  induction es with
  | nil => simp [upper] at h
  | cons x xs ih =>
    by_cases hx : below key x = true
    · simp only [upper, List.dropWhile_cons_of_pos hx] at h
      exact ih h
    · simp only [upper, List.dropWhile_cons_of_neg hx] at h
      cases h
      simpa using hx

theorem length_lower_le (key : List Byte) (es : List Entry) :
    (lower key es).length ≤ es.length := by
  have h := congrArg List.length (lower_append_upper key es)
  simp only [List.length_append] at h
  omega

theorem inv_level_pos {sl : SkipList} {es : List Entry} (h : Inv sl es) :
    0 < sl.level ∧ sl.level ≤ maxLevel := by
  rcases h.lvl with h1 | ⟨h1, _⟩ <;> simp [h1, maxLevel]

/-- On a list that satisfies the invariant `Get` returns, and returns `absGet`. -/
theorem get_spec {sl : SkipList} {es : List Entry} (h : Inv sl es) (key : List Byte) :
    Get sl key = absGet es key := by
  have hl : LinkedTo sl.heap (headEntry sl :: lower key es ++ upper key es) none := by
    rw [List.cons_append, lower_append_upper]; exact h.linked
  have h1 := getLoop_spec (lower key es) (upper key es) (headEntry sl) sl.heap.length hl
    (fun e he => below_of_mem_lower he) (fun e r he => not_below_upper he)
    (lt_of_le_of_lt (length_lower_le key es) h.room) sl.level (inv_level_pos h).2
    (inv_level_pos h).1
  exact h1

/-! ## The splice and unlink loops -/

theorem replicate_step_get {α : Type} (i n : Nat) (a b : α) :
    (List.replicate i a ++ List.replicate (n + 1) b)[i]? = some b := by
  rw [List.getElem?_append_right (by simp)]
  simp [List.replicate_succ]

theorem replicate_step_set {α : Type} (i n : Nat) (a b : α) :
    (List.replicate i a ++ List.replicate (n + 1) b).set i a =
      List.replicate (i + 1) a ++ List.replicate n b := by
  induction i with
  | zero => simp [List.replicate_succ]
  | succ i ih =>
    rw [List.replicate_succ, List.cons_append, List.set_cons_succ, ih]
    simp [List.replicate_succ]

theorem replicate_get_some {α : Type} (a : α) {i : Nat} (hi : i < maxLevel) :
    (List.replicate maxLevel a)[i]? = some a := by
  simp [List.getElem?_replicate, hi]

/-- The splice loop of `Put`, run on a path that is the node `p` at every level:
the new node gets the successor of `p` at every level, `p` gets the new node,
and no other cell changes. -/
theorem spliceLoop_spec (newId p : Nat) (hne : p ≠ newId) (nx : Option Nat)
    (nk pk : List Byte) (nv pv : Option LogRecordPosPtr) (n : Nat) :
    ∀ (i : Nat) (heap : List Node), i + n = maxLevel →
      heap[newId]? = some ⟨nk, nv, List.replicate i nx ++ List.replicate n none⟩ →
      heap[p]? = some ⟨pk, pv, List.replicate i (some newId) ++ List.replicate n nx⟩ →
      ∃ heap1, spliceLoop newId (List.replicate maxLevel (some p)) i n heap = some heap1 ∧
        heap1.length = heap.length ∧
        heap1[newId]? = some ⟨nk, nv, List.replicate maxLevel nx⟩ ∧
        heap1[p]? = some ⟨pk, pv, List.replicate maxLevel (some newId)⟩ ∧
        ∀ j, j ≠ newId → j ≠ p → heap1[j]? = heap[j]? := by
  induction n with
  | zero =>
    intro i heap hin hnew hp
    have hi : i = maxLevel := by omega
    subst hi
    refine ⟨heap, rfl, rfl, ?_, ?_, fun _ _ _ => rfl⟩
    · simpa using hnew
    · simpa using hp
  | succ n ih =>
    intro i heap hin hnew hp
    have hi : i < maxLevel := by omega
    have hnewlt : newId < heap.length := by
      by_contra hc
      rw [List.getElem?_eq_none (not_lt.mp hc)] at hnew
      cases hnew
    have hplt : p < heap.length := by
      by_contra hc
      rw [List.getElem?_eq_none (not_lt.mp hc)] at hp
      cases hp
    have hp1 : (heap.set newId
        ⟨nk, nv, (List.replicate i nx ++ List.replicate (n + 1) none).set i nx⟩)[p]? =
        some ⟨pk, pv, List.replicate i (some newId) ++ List.replicate (n + 1) nx⟩ := by
      rw [List.getElem?_set_ne (Ne.symm hne)]; exact hp
    obtain ⟨heap1, h1, h2, h3, h4, h5⟩ := ih (i + 1)
      ((heap.set newId ⟨nk, nv, List.replicate (i + 1) nx ++ List.replicate n none⟩).set p
        ⟨pk, pv, List.replicate (i + 1) (some newId) ++ List.replicate n nx⟩)
      (by omega)
      (by rw [List.getElem?_set_ne hne, List.getElem?_set_self hnewlt])
      (by rw [List.getElem?_set_self (by simpa using hplt)])
    refine ⟨heap1, ?_, ?_, h3, h4, ?_⟩
    · simp only [spliceLoop, replicate_get_some _ hi, hp, hnew, replicate_step_get,
        List.length_append, List.length_replicate]
      rw [if_pos (by omega)]
      simp only [hp1, List.length_append, List.length_replicate]
      rw [if_pos (by omega)]
      simp only [replicate_step_set]
      exact h1
    · simpa using h2
    · intro j hj1 hj2
      rw [h5 j hj1 hj2, List.getElem?_set_ne (Ne.symm hj2), List.getElem?_set_ne (Ne.symm hj1)]

/-- The unlink loop of `Delete`, run on a path that is the node `p` at every
level and that points at `target` at every level: `p` gets the successor of
`target` at every level, and no other cell changes. -/
theorem unlinkLoop_spec (target p : Nat) (hne : p ≠ target) (nx : Option Nat)
    (tk pk : List Byte) (tv pv : Option LogRecordPosPtr) (n : Nat) :
    ∀ (i : Nat) (heap : List Node), i + n = maxLevel →
      heap[target]? = some ⟨tk, tv, List.replicate maxLevel nx⟩ →
      heap[p]? = some ⟨pk, pv, List.replicate i nx ++ List.replicate n (some target)⟩ →
      ∃ heap1, unlinkLoop target (List.replicate maxLevel (some p)) i n heap = some heap1 ∧
        heap1.length = heap.length ∧
        heap1[p]? = some ⟨pk, pv, List.replicate maxLevel nx⟩ ∧
        ∀ j, j ≠ p → heap1[j]? = heap[j]? := by
  induction n with
  | zero =>
    intro i heap hin _ hp
    have hi : i = maxLevel := by omega
    subst hi
    refine ⟨heap, rfl, rfl, ?_, fun _ _ => rfl⟩
    simpa using hp
  | succ n ih =>
    intro i heap hin ht hp
    have hi : i < maxLevel := by omega
    have hplt : p < heap.length := by
      by_contra hc
      rw [List.getElem?_eq_none (not_lt.mp hc)] at hp
      cases hp
    obtain ⟨heap1, h1, h2, h3, h4⟩ := ih (i + 1)
      (heap.set p ⟨pk, pv, List.replicate (i + 1) nx ++ List.replicate n (some target)⟩)
      (by omega)
      (by rw [List.getElem?_set_ne hne]; exact ht)
      (by rw [List.getElem?_set_self hplt])
    refine ⟨heap1, ?_, ?_, h3, ?_⟩
    · simp only [unlinkLoop, replicate_get_some _ hi, hp, ht, replicate_step_get,
        ne_eq, not_true_eq_false, if_false, replicate_step_set]
      exact h1
    · simpa using h2
    · intro j hj
      rw [h4 j hj, List.getElem?_set_ne (Ne.symm hj)]

/-! ## The invariant is kept -/

theorem ids_ne_of_nodup {A B : List Entry} (h : ((A ++ B).map Entry.id).Nodup)
    {a b : Entry} (ha : a ∈ A) (hb : b ∈ B) : a.id ≠ b.id := by
  rw [List.map_append, List.nodup_append] at h
  intro hc
  exact h.2.2 (List.mem_map_of_mem Entry.id ha) (hc ▸ List.mem_map_of_mem Entry.id hb)

theorem inv_nodup_full {sl : SkipList} {es : List Entry} (h : Inv sl es) :
    ((headEntry sl :: es).map Entry.id).Nodup := h.nodup

theorem getElem?_isSome_lt {heap : List Node} {j : Nat} {nd : Node}
    (h : heap[j]? = some nd) : j < heap.length := by
  by_contra hc
  rw [List.getElem?_eq_none (not_lt.mp hc)] at h
  cases h

/-- Linking a fresh node between `P` and its successor keeps the invariant. -/
theorem insert_inv {sl : SkipList} {es lo hi_ pre : List Entry} {P : Entry}
    {key : List Byte} {pos : LogRecordPosPtr}
    (h : Inv sl es) (hes : es = lo ++ hi_) (hfull : headEntry sl :: lo = pre ++ [P])
    (hlo : ∀ e ∈ lo, bytesCompare e.key key < 0)
    (hhi : ∀ e ∈ hi_, bytesCompare key e.key < 0)
    (heap1 : List Node) (hlen : heap1.length = sl.heap.length + 1)
    (hnew : heap1[sl.heap.length]? =
      some (cell ⟨sl.heap.length, key, some pos⟩ (nextOr hi_ none)))
    (hp : heap1[P.id]? = some (cell P (some sl.heap.length)))
    (hframe : ∀ j, j ≠ sl.heap.length → j ≠ P.id → j < sl.heap.length →
      heap1[j]? = sl.heap[j]?) :
    Inv ⟨heap1, sl.head, maxLevel, sl.length + 1⟩
      (lo ++ ⟨sl.heap.length, key, some pos⟩ :: hi_) := by
  have hfull2 : headEntry sl :: es = pre ++ P :: hi_ := by
    rw [hes, ← List.cons_append, hfull]; simp
  have hl := h.linked
  rw [hfull2] at hl
  obtain ⟨hl1, hl2⟩ := linkedTo_append.mp hl
  have hnd := inv_nodup_full h
  rw [hfull2] at hnd
  have hlt : ∀ e ∈ pre ++ P :: hi_, e.id < sl.heap.length := fun e he => linkedTo_lt hl he
  refine ⟨?_, ?_, ?_, ?_, ?_, Or.inl rfl, ?_⟩
  · have e1 : headEntry sl :: (lo ++ ⟨sl.heap.length, key, some pos⟩ :: hi_) =
        pre ++ P :: ⟨sl.heap.length, key, some pos⟩ :: hi_ := by
      rw [← List.cons_append, hfull]; simp
    show LinkedTo heap1 (headEntry sl :: (lo ++ ⟨sl.heap.length, key, some pos⟩ :: hi_)) none
    rw [e1]
    refine linkedTo_append.mpr ⟨?_, hp, hnew, ?_⟩
    · refine linkedTo_congr (fun e he => ?_) hl1
      have h1 := hlt e (List.mem_append_left _ he)
      exact hframe e.id (by omega) (ids_ne_of_nodup hnd he (List.mem_cons_self _ _)) h1
    · refine linkedTo_congr (fun e he => ?_) hl2.2
      have h1 := hlt e (List.mem_append_right _ (List.mem_cons_of_mem _ he))
      have h2 : ((pre ++ [P] ++ hi_).map Entry.id).Nodup := by simpa using hnd
      exact hframe e.id (by omega)
        (Ne.symm (ids_ne_of_nodup h2 (List.mem_append_right _ (List.mem_singleton_self _)) he))
        h1
  · have hperm : (sl.head :: (lo ++ ⟨sl.heap.length, key, some pos⟩ :: hi_).map Entry.id).Perm
        (sl.heap.length :: sl.head :: (lo ++ hi_).map Entry.id) := by
      simp only [List.map_append, List.map_cons]
      exact (List.Perm.cons _ List.perm_middle).trans (List.Perm.swap _ _ _)
    show (sl.head :: (lo ++ ⟨sl.heap.length, key, some pos⟩ :: hi_).map Entry.id).Nodup
    rw [hperm.nodup_iff, List.nodup_cons]
    refine ⟨?_, by rw [← hes]; exact h.nodup⟩
    intro hc
    have hc2 : sl.heap.length ∈ (headEntry sl :: es).map Entry.id := by
      rw [hes]; exact hc
    obtain ⟨e, he, hid⟩ := List.mem_map.mp hc2
    have h1 := hlt e (hfull2 ▸ he)
    omega
  · intro e he
    rcases List.mem_append.mp he with h1 | h1
    · exact h.typed e (hes ▸ List.mem_append_left _ h1)
    · rcases List.mem_cons.mp h1 with h2 | h2
      · subst h2; simp
      · exact h.typed e (hes ▸ List.mem_append_right _ h2)
  · have hs := h.sorted
    rw [hes, List.pairwise_append] at hs
    refine List.pairwise_append.mpr ⟨hs.1, List.pairwise_cons.mpr ⟨hhi, hs.2.1⟩, ?_⟩
    intro a ha b hb
    rcases List.mem_cons.mp hb with h2 | h2
    · subst h2; exact hlo a ha
    · exact hs.2.2 a ha b h2
  · show sl.length + 1 = ((lo ++ ⟨sl.heap.length, key, some pos⟩ :: hi_).length : Int)
    rw [h.size, hes]; simp only [List.length_append, List.length_cons]; omega
  · show (lo ++ ⟨sl.heap.length, key, some pos⟩ :: hi_).length < heap1.length
    have h1 := h.room
    rw [hes] at h1
    simp only [List.length_append, List.length_cons] at h1 ⊢
    omega

/-- Overwriting the value of a linked node keeps the invariant. -/
theorem update_inv {sl : SkipList} {es lo r : List Entry} {e : Entry}
    {pos : LogRecordPosPtr}
    (h : Inv sl es) (hes : es = lo ++ e :: r)
    (heap1 : List Node) (hlen : heap1.length = sl.heap.length)
    (hnew : heap1[e.id]? = some (cell ⟨e.id, e.key, some pos⟩ (nextOr r none)))
    (hframe : ∀ j, j ≠ e.id → heap1[j]? = sl.heap[j]?) :
    Inv ⟨heap1, sl.head, sl.level, sl.length⟩ (lo ++ ⟨e.id, e.key, some pos⟩ :: r) := by
  have hfull2 : headEntry sl :: es = (headEntry sl :: lo) ++ e :: r := by
    rw [hes]; simp
  have hl := h.linked
  rw [hfull2] at hl
  obtain ⟨hl1, hl2⟩ := linkedTo_append.mp hl
  have hnd := inv_nodup_full h
  rw [hfull2] at hnd
  refine ⟨?_, ?_, ?_, ?_, ?_, ?_, ?_⟩
  · show LinkedTo heap1 (headEntry sl :: (lo ++ ⟨e.id, e.key, some pos⟩ :: r)) none
    rw [← List.cons_append]
    refine linkedTo_append.mpr ⟨?_, hnew, ?_⟩
    · refine linkedTo_congr (fun x hx => ?_) hl1
      exact hframe x.id (ids_ne_of_nodup hnd hx (List.mem_cons_self _ _))
    · refine linkedTo_congr (fun x hx => ?_) hl2.2
      have h2 : ((headEntry sl :: lo ++ [e] ++ r).map Entry.id).Nodup := by simpa using hnd
      exact hframe x.id
        (Ne.symm (ids_ne_of_nodup h2 (List.mem_append_right _ (List.mem_singleton_self _)) hx))
  · have h1 := h.nodup
    rw [hes] at h1
    simpa using h1
  · intro x hx
    rcases List.mem_append.mp hx with h1 | h1
    · exact h.typed x (hes ▸ List.mem_append_left _ h1)
    · rcases List.mem_cons.mp h1 with h2 | h2
      · subst h2; simp
      · exact h.typed x (hes ▸ List.mem_append_right _ (List.mem_cons_of_mem _ h2))
  · have hs := h.sorted
    rw [hes, List.pairwise_append, List.pairwise_cons] at hs
    refine List.pairwise_append.mpr ⟨hs.1, List.pairwise_cons.mpr ⟨hs.2.1.1, hs.2.1.2⟩, ?_⟩
    intro a ha b hb
    rcases List.mem_cons.mp hb with h2 | h2
    · subst h2; exact hs.2.2 a ha e (List.mem_cons_self _ _)
    · exact hs.2.2 a ha b (List.mem_cons_of_mem _ h2)
  · show sl.length = ((lo ++ ⟨e.id, e.key, some pos⟩ :: r).length : Int)
    rw [h.size, hes]; simp
  · rcases h.lvl with h1 | ⟨_, h1⟩
    · exact Or.inl h1
    · rw [hes] at h1; simp at h1
  · show (lo ++ ⟨e.id, e.key, some pos⟩ :: r).length < heap1.length
    have h1 := h.room
    rw [hes] at h1
    simp only [List.length_append, List.length_cons] at h1 ⊢
    omega

/-- Unlinking the successor of `P` at every level keeps the invariant. -/
theorem delete_inv {sl : SkipList} {es lo r pre : List Entry} {P e : Entry}
    (h : Inv sl es) (hes : es = lo ++ e :: r) (hfull : headEntry sl :: lo = pre ++ [P])
    (heap1 : List Node) (hlen : heap1.length = sl.heap.length)
    (hp : heap1[P.id]? = some (cell P (nextOr r none)))
    (hframe : ∀ j, j ≠ P.id → heap1[j]? = sl.heap[j]?) :
    Inv ⟨heap1, sl.head, sl.level, sl.length - 1⟩ (lo ++ r) := by
  have hfull2 : headEntry sl :: es = pre ++ P :: e :: r := by
    rw [hes, ← List.cons_append, hfull]; simp
  have hl := h.linked
  rw [hfull2] at hl
  obtain ⟨hl1, hl2⟩ := linkedTo_append.mp hl
  have hnd := inv_nodup_full h
  rw [hfull2] at hnd
  refine ⟨?_, ?_, ?_, ?_, ?_, ?_, ?_⟩
  · have e1 : headEntry sl :: (lo ++ r) = pre ++ P :: r := by
      rw [← List.cons_append, hfull]; simp
    show LinkedTo heap1 (headEntry sl :: (lo ++ r)) none
    rw [e1]
    refine linkedTo_append.mpr ⟨?_, hp, ?_⟩
    · refine linkedTo_congr (fun x hx => ?_) hl1
      exact hframe x.id (ids_ne_of_nodup hnd hx (List.mem_cons_self _ _))
    · refine linkedTo_congr (fun x hx => ?_) hl2.2.2
      have h2 : ((pre ++ [P] ++ e :: r).map Entry.id).Nodup := by simpa using hnd
      exact hframe x.id
        (Ne.symm (ids_ne_of_nodup h2 (List.mem_append_right _ (List.mem_singleton_self _))
          (List.mem_cons_of_mem _ hx)))
  · have h1 := h.nodup
    rw [hes] at h1
    have h2 : (sl.head :: (lo ++ r).map Entry.id).Sublist
        (sl.head :: (lo ++ e :: r).map Entry.id) := by
      refine List.Sublist.cons₂ _ (List.Sublist.map _ ?_)
      exact List.Sublist.append_left (List.sublist_cons_self e r) lo
    exact h1.sublist h2
  · intro x hx
    rcases List.mem_append.mp hx with h1 | h1
    · exact h.typed x (hes ▸ List.mem_append_left _ h1)
    · exact h.typed x (hes ▸ List.mem_append_right _ (List.mem_cons_of_mem _ h1))
  · have hs := h.sorted
    rw [hes] at hs
    exact hs.sublist (List.Sublist.append_left (List.sublist_cons_self e r) lo)
  · show sl.length - 1 = ((lo ++ r).length : Int)
    rw [h.size, hes]; simp only [List.length_append, List.length_cons]; omega
  · rcases h.lvl with h1 | ⟨_, h1⟩
    · exact Or.inl h1
    · rw [hes] at h1; simp at h1
  · show (lo ++ r).length < heap1.length
    have h1 := h.room
    rw [hes] at h1
    simp only [List.length_append, List.length_cons] at h1 ⊢
    omega

/-! ## What `Put`, `Get` and `Delete` do on a list that satisfies the invariant -/

theorem path_level_max (p : Nat) :
    setAll p maxLevel (List.replicate maxLevel none) = List.replicate maxLevel (some p) := by
  simp [setAll, maxLevel, List.replicate]

theorem path_level_one (p : Nat) :
    raisePath p 1 (maxLevel - 1) (setAll p 1 (List.replicate maxLevel none)) =
      some (List.replicate maxLevel (some p)) := by
  simp [setAll, raisePath, maxLevel, List.replicate]

/-- The search of `Put` and `Delete` ends on the last entry with a smaller key
(the head when there is none). -/
theorem search_facts {sl : SkipList} {es : List Entry} (h : Inv sl es) (key : List Byte) :
    findPath sl.heap key sl.heap.length sl.level sl.head (List.replicate maxLevel none) =
      some ((lastOf (headEntry sl) (lower key es)).id,
        setAll (lastOf (headEntry sl) (lower key es)).id sl.level
          (List.replicate maxLevel none)) ∧
    sl.heap[(lastOf (headEntry sl) (lower key es)).id]? =
      some (cell (lastOf (headEntry sl) (lower key es)) (nextOr (upper key es) none)) ∧
    LinkedTo sl.heap (upper key es) none := by
  have hl : LinkedTo sl.heap (headEntry sl :: lower key es ++ upper key es) none := by
    rw [List.cons_append, lower_append_upper]; exact h.linked
  have h1 := findPath_spec (lower key es) (upper key es) (headEntry sl) sl.heap.length hl
    (fun e he => below_of_mem_lower he) (fun e r he => not_below_upper he)
    (lt_of_le_of_lt (length_lower_le key es) h.room) sl.level (inv_level_pos h).2
    (inv_level_pos h).1 (List.replicate maxLevel none)
    (by simpa using (inv_level_pos h).2)
  have h2 := (linkedTo_last hl).2
  exact ⟨h1, h2.1, h2.2⟩

/-- The path that `Put` splices on, after the raise to `maxLevel`: the node the
search ended on, at every level. -/
theorem putInsert_eq {sl : SkipList} {es : List Entry} (h : Inv sl es) (key : List Byte)
    (pos : LogRecordPosPtr) (rnd : Nat → Nat) :
    putInsert sl key pos rnd
        (setAll (lastOf (headEntry sl) (lower key es)).id sl.level
          (List.replicate maxLevel none)) =
      (match spliceLoop sl.heap.length
          (List.replicate maxLevel (some (lastOf (headEntry sl) (lower key es)).id)) 0 maxLevel
          (sl.heap ++ [newNode key (some pos) maxLevel]) with
       | none => none
       | some heap1 => some (⟨heap1, sl.head, maxLevel, sl.length + 1⟩, none)) := by
  rcases h.lvl with h1 | ⟨h1, h2⟩
  · simp only [putInsert, randomLevel, h1, gt_iff_lt, lt_irrefl, if_false, path_level_max]
  · subst h2
    have h3 : (lastOf (headEntry sl) (lower key [])).id = sl.head := rfl
    simp only [putInsert, randomLevel, h1, h3, gt_iff_lt,
      show (1 : Nat) < maxLevel from by decide, if_true, path_level_one, Option.map_some']

theorem upper_sorted {es : List Entry} (key : List Byte)
    (h : es.Pairwise (fun a b => bytesCompare a.key b.key < 0)) :
    (upper key es).Pairwise (fun a b => bytesCompare a.key b.key < 0) :=
  h.sublist (List.dropWhile_sublist _)

/-- When the search does not stop in front of the key itself, every entry from
there on has a larger key. -/
theorem above_upper {es : List Entry} {key : List Byte}
    (h : es.Pairwise (fun a b => bytesCompare a.key b.key < 0))
    (hne : ∀ e r, upper key es = e :: r → e.key ≠ key) :
    ∀ x ∈ upper key es, bytesCompare key x.key < 0 := by
  have hs := upper_sorted key h
  cases hu : upper key es with
  | nil => intro x hx; cases hx
  | cons e r =>
    rw [hu] at hs
    have h1 : ¬ bytesCompare e.key key < 0 := by
      have h2 := not_below_upper hu
      simpa [below] using h2
    have h3 : bytesCompare key e.key < 0 := bytesCompare_lt_of_not h1 (hne e r hu)
    intro x hx
    rcases List.mem_cons.mp hx with h4 | h4
    · subst h4; exact h3
    · exact bytesCompare_lt_trans h3 ((List.pairwise_cons.mp hs).1 x h4)

theorem below_lower {es : List Entry} {key : List Byte} :
    ∀ e ∈ lower key es, bytesCompare e.key key < 0 := by
  intro e he
  have h := below_of_mem_lower he
  simpa [below] using h

/-- `Put` of a key that is not in the list: a fresh node is linked in at the place
the search stopped, and `Put` returns nil. -/
theorem put_insert_spec {sl : SkipList} {es : List Entry} (h : Inv sl es) (key : List Byte)
    (pos : LogRecordPosPtr) (rnd : Nat → Nat)
    (hne : ∀ e r, upper key es = e :: r → e.key ≠ key) :
    ∃ heap1, Put sl key pos rnd = some (⟨heap1, sl.head, maxLevel, sl.length + 1⟩, none) ∧
      Inv ⟨heap1, sl.head, maxLevel, sl.length + 1⟩
        (lower key es ++ ⟨sl.heap.length, key, some pos⟩ :: upper key es) := by
  obtain ⟨hfind, hcell, hup⟩ := search_facts h key
  have hPlt := getElem?_isSome_lt hcell
  obtain ⟨heap1, hsp, hlen, hn1, hp1, hfr⟩ :=
    spliceLoop_spec sl.heap.length (lastOf (headEntry sl) (lower key es)).id (ne_of_lt hPlt)
      (nextOr (upper key es) none) key (lastOf (headEntry sl) (lower key es)).key (some pos)
      (lastOf (headEntry sl) (lower key es)).value maxLevel 0
      (sl.heap ++ [newNode key (some pos) maxLevel]) (by simp)
      (by simp [newNode])
      (by rw [List.getElem?_append_left hPlt, hcell]; simp [cell])
  refine ⟨heap1, ?_, ?_⟩
  · have hput : Put sl key pos rnd = putInsert sl key pos rnd
        (setAll (lastOf (headEntry sl) (lower key es)).id sl.level
          (List.replicate maxLevel none)) := by
      simp only [Put, hfind, hcell, cell_forward_get _ _ (show 0 < maxLevel by decide)]
      cases hu : upper key es with
      | nil => simp only [nextOr_nil]
      | cons e r =>
        have h4 : sl.heap[e.id]? = some (cell e (nextOr r none)) := by
          rw [hu] at hup; exact hup.1
        have hk : ¬ bytesEqual (cell e (nextOr r none)).key key = true :=
          fun hc => hne e r hu ((bytesEqual_iff _ _).mp hc)
        simp only [nextOr_cons, h4]
        rw [if_neg hk]
    rw [hput, putInsert_eq h, hsp]
  · refine insert_inv h (lower_append_upper key es).symm (initOf_append_lastOf _ _).symm
      below_lower (above_upper h.sorted hne) heap1 (by simpa using hlen) hn1 hp1 ?_
    intro j hj1 hj2 hj3
    rw [hfr j hj1 hj2, List.getElem?_append_left hj3]

/-- `Put` of a key that is in the list: the value of its node is overwritten and
the old value is returned. -/
theorem put_update_spec {sl : SkipList} {es : List Entry} (h : Inv sl es) (key : List Byte)
    (pos : LogRecordPosPtr) (rnd : Nat → Nat) {e : Entry} {r : List Entry}
    (hu : upper key es = e :: r) (hk : e.key = key) :
    ∃ old heap1, e.value = some old ∧
      Put sl key pos rnd = some (⟨heap1, sl.head, sl.level, sl.length⟩, old) ∧
      Inv ⟨heap1, sl.head, sl.level, sl.length⟩
        (lower key es ++ ⟨e.id, e.key, some pos⟩ :: r) := by
  obtain ⟨hfind, hcell, hup⟩ := search_facts h key
  rw [hu] at hcell hup
  have h4 : sl.heap[e.id]? = some (cell e (nextOr r none)) := hup.1
  have hes : es = lower key es ++ e :: r := by
    rw [← hu]; exact (lower_append_upper key es).symm
  have hmem : e ∈ es := by rw [hes]; simp
  obtain ⟨old, hold⟩ : ∃ old, e.value = some old :=
    Option.ne_none_iff_exists'.mp (h.typed e hmem)
  have hkb : bytesEqual (cell e (nextOr r none)).key key = true := (bytesEqual_iff _ _).mpr hk
  have hv : (cell e (nextOr r none)).value = some old := hold
  refine ⟨old, sl.heap.set e.id ⟨e.key, some pos, List.replicate maxLevel (nextOr r none)⟩,
    hold, ?_, ?_⟩
  · simp only [Put, hfind, hcell, cell_forward_get _ _ (show 0 < maxLevel by decide),
      nextOr_cons, h4]
    rw [if_pos hkb]
    simp only [hv]
    rfl
  · refine update_inv h hes _ (by simp) ?_ ?_
    · rw [List.getElem?_set_self (getElem?_isSome_lt h4)]; rfl
    · intro j hj
      rw [List.getElem?_set_ne (Ne.symm hj)]

/-- `Delete` of a key that is not in the list changes nothing. -/
theorem delete_absent_spec {sl : SkipList} {es : List Entry} (h : Inv sl es)
    (key : List Byte) (hne : ∀ e r, upper key es = e :: r → e.key ≠ key) :
    Delete sl key = some (sl, none, false) := by
  obtain ⟨hfind, hcell, hup⟩ := search_facts h key
  simp only [Delete, hfind, hcell, cell_forward_get _ _ (show 0 < maxLevel by decide)]
  cases hu : upper key es with
  | nil => simp only [nextOr_nil]
  | cons e r =>
    have h4 : sl.heap[e.id]? = some (cell e (nextOr r none)) := by
      rw [hu] at hup; exact hup.1
    have hk : ¬ bytesEqual (cell e (nextOr r none)).key key = true :=
      fun hc => hne e r hu ((bytesEqual_iff _ _).mp hc)
    simp only [nextOr_cons, h4]
    rw [if_neg hk]

/-- `Delete` of a key that is in the list: its node is unlinked at every level
and its value is returned. -/
theorem delete_present_spec {sl : SkipList} {es : List Entry} (h : Inv sl es)
    (key : List Byte) {e : Entry} {r : List Entry}
    (hu : upper key es = e :: r) (hk : e.key = key) :
    ∃ old heap1, e.value = some old ∧
      Delete sl key = some (⟨heap1, sl.head, sl.level, sl.length - 1⟩, old, true) ∧
      Inv ⟨heap1, sl.head, sl.level, sl.length - 1⟩ (lower key es ++ r) := by
  obtain ⟨hfind, hcell, hup⟩ := search_facts h key
  rw [hu] at hcell hup
  have h4 : sl.heap[e.id]? = some (cell e (nextOr r none)) := hup.1
  have hes : es = lower key es ++ e :: r := by
    rw [← hu]; exact (lower_append_upper key es).symm
  have hmem : e ∈ es := by rw [hes]; simp
  obtain ⟨old, hold⟩ : ∃ old, e.value = some old :=
    Option.ne_none_iff_exists'.mp (h.typed e hmem)
  have hkb : bytesEqual (cell e (nextOr r none)).key key = true := (bytesEqual_iff _ _).mpr hk
  have hlvl : sl.level = maxLevel := by
    rcases h.lvl with h1 | ⟨_, h1⟩
    · exact h1
    · rw [h1] at hmem; cases hmem
  have hfull : headEntry sl :: es =
      (initOf (headEntry sl) (lower key es) ++ [lastOf (headEntry sl) (lower key es)]) ++
        e :: r := by
    rw [initOf_append_lastOf, List.cons_append, ← hes]
  have hnd := inv_nodup_full h
  rw [hfull] at hnd
  have hPe : (lastOf (headEntry sl) (lower key es)).id ≠ e.id :=
    ids_ne_of_nodup hnd (List.mem_append_right _ (List.mem_singleton_self _))
      (List.mem_cons_self _ _)
  obtain ⟨heap1, hun, hlen, hp1, hfr⟩ :=
    unlinkLoop_spec e.id (lastOf (headEntry sl) (lower key es)).id hPe (nextOr r none)
      e.key (lastOf (headEntry sl) (lower key es)).key e.value
      (lastOf (headEntry sl) (lower key es)).value maxLevel 0 sl.heap (by simp) h4
      (by rw [hcell]; simp [cell, nextOr_cons])
  have ht : heap1[e.id]? = some (cell e (nextOr r none)) := by
    rw [hfr e.id (Ne.symm hPe)]; exact h4
  have hv : (cell e (nextOr r none)).value = some old := hold
  refine ⟨old, heap1, hold, ?_, ?_⟩
  · simp only [Delete, hfind, hcell, cell_forward_get _ _ (show 0 < maxLevel by decide),
      nextOr_cons, h4]
    rw [if_pos hkb]
    simp only [hlvl, path_level_max, hun, ht, hv]
  · exact delete_inv h hes (initOf_append_lastOf _ _).symm heap1 hlen hp1 hfr

/-- The new list satisfies the invariant, with no entries. -/
theorem inv_new : Inv NewSkipList [] := by
  refine ⟨?_, ?_, ?_, ?_, rfl, Or.inr ⟨rfl, rfl⟩, ?_⟩
  · exact ⟨rfl, trivial⟩
  · simp
  · intro e he; cases he
  · exact List.Pairwise.nil
  · simp [NewSkipList]

/-- Which of the two cases of `Put` and `Delete` applies. -/
theorem upper_cases (key : List Byte) (es : List Entry) :
    (∀ e r, upper key es = e :: r → e.key ≠ key) ∨
    (∃ e r, upper key es = e :: r ∧ e.key = key) := by
  cases hu : upper key es with
  | nil => exact Or.inl (fun e r hc => by cases hc)
  | cons e r =>
    by_cases hk : e.key = key
    · exact Or.inr ⟨e, r, rfl, hk⟩
    · refine Or.inl (fun e1 r1 hc => ?_)
      cases hc; exact hk

/-- Every reachable list satisfies the invariant for some entries. -/
theorem reachable_inv {sl : SkipList} (h : Reachable sl) : ∃ es, Inv sl es := by
  induction h with
  | new => exact ⟨[], inv_new⟩
  | @put sl sl1 key pos old rnd _ hput ih =>
    obtain ⟨es, hinv⟩ := ih
    rcases upper_cases key es with hc | ⟨e, r, hu, hk⟩
    · obtain ⟨heap1, h1, h2⟩ := put_insert_spec hinv key pos rnd hc
      rw [h1] at hput
      cases hput
      exact ⟨_, h2⟩
    · obtain ⟨o, heap1, _, h1, h2⟩ := put_update_spec hinv key pos rnd hu hk
      rw [h1] at hput
      cases hput
      exact ⟨_, h2⟩
  | @delete sl sl1 key old existed _ hdel ih =>
    obtain ⟨es, hinv⟩ := ih
    rcases upper_cases key es with hc | ⟨e, r, hu, hk⟩
    · rw [delete_absent_spec hinv key hc] at hdel
      cases hdel
      exact ⟨es, hinv⟩
    · obtain ⟨o, heap1, _, h1, h2⟩ := delete_present_spec hinv key hu hk
      rw [h1] at hdel
      cases hdel
      exact ⟨_, h2⟩

/-! ## The chains of a list that satisfies the invariant -/

theorem chainFrom_spec {heap : List Node} {i : Nat} (hi : i < maxLevel) (es : List Entry)
    (fuel : Nat) (hl : LinkedTo heap es none) (hf : es.length ≤ fuel) :
    chainFrom heap i fuel (nextOr es none) = some (cells es) := by
  induction es generalizing fuel with
  | nil => cases fuel <;> rfl
  | cons e es ih =>
    obtain ⟨f, rfl⟩ : ∃ f, fuel = f + 1 := ⟨fuel - 1, by simp at hf; omega⟩
    have h1 : heap[e.id]? = some (cell e (nextOr es none)) := hl.1
    have h2 := ih f hl.2 (by simp at hf; omega)
    simp only [nextOr_cons, chainFrom, h1, cell_forward_get _ _ hi, h2, Option.map_some', cells]

/-- At every level the chain of a list that satisfies the invariant is the list
of its entries. -/
theorem chainAt_spec {sl : SkipList} {es : List Entry} (h : Inv sl es) {i : Nat}
    (hi : i < maxLevel) : chainAt sl i = some (cells es) := by
  have h1 : sl.heap[sl.head]? = some (cell (headEntry sl) (nextOr es none)) := h.linked.1
  have h2 := chainFrom_spec hi es sl.heap.length h.linked.2 (le_of_lt h.room)
  simp only [chainAt, h1, cell_forward_get _ _ hi, h2]

theorem cells_length (es : List Entry) : (cells es).length = es.length := by
  induction es with
  | nil => rfl
  | cons e es ih => simp [cells, ih]

theorem cells_keys (es : List Entry) :
    (cells es).map (fun x => x.2.key) = es.map Entry.key := by
  induction es with
  | nil => rfl
  | cons e es ih => simp [cells, ih, cell]

theorem cells_ids (es : List Entry) :
    (cells es).map (fun x => x.1) = es.map Entry.id := by
  induction es with
  | nil => rfl
  | cons e es ih => simp [cells, ih]

theorem mem_cells {es : List Entry} {x : Nat × Node} (hx : x ∈ cells es) :
    ∃ e ∈ es, x.1 = e.id ∧ x.2.key = e.key ∧ x.2.value = e.value := by
  induction es with
  | nil => cases hx
  | cons e es ih =>
    rcases List.mem_cons.mp hx with h | h
    · subst h; exact ⟨e, List.mem_cons_self _ _, rfl, rfl, rfl⟩
    · obtain ⟨e1, h1, h2⟩ := ih h
      exact ⟨e1, List.mem_cons_of_mem _ h1, h2⟩

theorem keysAt_spec {sl : SkipList} {es : List Entry} (h : Inv sl es) {i : Nat}
    (hi : i < maxLevel) : keysAt sl i = some (es.map Entry.key) := by
  simp only [keysAt, chainAt_spec h hi, Option.map_some', cells_keys]

theorem idsAt_spec {sl : SkipList} {es : List Entry} (h : Inv sl es) {i : Nat}
    (hi : i < maxLevel) : idsAt sl i = some (es.map Entry.id) := by
  simp only [idsAt, chainAt_spec h hi, Option.map_some', cells_ids]

/-! ## The entries around a key -/

theorem not_below_self (key : List Byte) (e : Entry) (h : e.key = key) :
    below key e = false := by
  simp [below, h, bytesCompare_self]

theorem upper_append_of {key : List Byte} {lo : List Entry} (x : Entry) (rs : List Entry)
    (hlo : ∀ e ∈ lo, below key e = true) (hx : below key x = false) :
    upper key (lo ++ x :: rs) = x :: rs := by
  have h1 : ¬ below key x = true := by simp [hx]
  simp only [upper]
  rw [List.dropWhile_append_of_pos hlo, List.dropWhile_cons_of_neg h1]

theorem lower_append_of {key : List Byte} {lo : List Entry} (x : Entry) (rs : List Entry)
    (hlo : ∀ e ∈ lo, below key e = true) (hx : below key x = false) :
    lower key (lo ++ x :: rs) = lo := by
  have h1 : ¬ below key x = true := by simp [hx]
  simp only [lower]
  rw [List.takeWhile_append_of_pos hlo, List.takeWhile_cons_of_neg h1, List.append_nil]

/-- When no entry has the key, the search does not stop in front of it. -/
theorem absent_of_keys_ne {key : List Byte} {es : List Entry}
    (h : ∀ e ∈ es, e.key ≠ key) : ∀ e r, upper key es = e :: r → e.key ≠ key := by
  intro e r hu
  have h1 : e ∈ upper key es := by rw [hu]; exact List.mem_cons_self _ _
  exact h e ((List.dropWhile_sublist _).subset h1)

theorem absGet_absent {key : List Byte} {es : List Entry}
    (h : ∀ e r, upper key es = e :: r → e.key ≠ key) : absGet es key = some none := by
  unfold absGet
  cases hu : upper key es with
  | nil => rfl
  | cons e r => simp [firstHit, h e r hu]

/-- In a sorted list the search stops in front of the entry with the key, when
there is one. -/
theorem mem_key_upper {key : List Byte} {es : List Entry}
    (hs : es.Pairwise (fun a b => bytesCompare a.key b.key < 0))
    {x : Entry} (hx : x ∈ es) (hk : x.key = key) : ∃ r, upper key es = x :: r := by
  rw [← lower_append_upper key es] at hx
  rcases List.mem_append.mp hx with h1 | h1
  · have h2 := below_of_mem_lower h1
    rw [not_below_self key x hk] at h2
    cases h2
  · have hsu := upper_sorted key hs
    cases hu : upper key es with
    | nil => rw [hu] at h1; cases h1
    | cons e r =>
      rw [hu] at h1 hsu
      rcases List.mem_cons.mp h1 with h2 | h2
      · subst h2; exact ⟨r, rfl⟩
      · have h3 := (List.pairwise_cons.mp hsu).1 x h2
        have h4 := not_below_upper hu
        rw [hk] at h3
        simp [below, h3] at h4

/-- The entries of a sorted list on either side of an entry lie on either side
of its key. -/
theorem sorted_split {lo rs : List Entry} {x : Entry}
    (hs : (lo ++ x :: rs).Pairwise (fun a b => bytesCompare a.key b.key < 0)) :
    (∀ e ∈ lo, bytesCompare e.key x.key < 0) ∧ (∀ e ∈ rs, bytesCompare x.key e.key < 0) := by
  rw [List.pairwise_append, List.pairwise_cons] at hs
  exact ⟨fun e he => hs.2.2 e he x (List.mem_cons_self _ _), hs.2.1.1⟩

theorem key_ne_of_lt {a b : List Byte} (h : bytesCompare a b < 0) : a ≠ b := by
  intro hc
  rw [hc, bytesCompare_self] at h
  exact lt_irrefl _ h

/-- After `Put(K, P)` the list has an entry for `K` with value `P`, right behind
the entries with a smaller key; `Put` returns what `Get` returned before. -/
theorem put_lands {sl : SkipList} {es : List Entry} (h : Inv sl es) (key : List Byte)
    (pos : LogRecordPosPtr) (rnd : Nat → Nat) :
    ∃ sl1 old id rs, Put sl key pos rnd = some (sl1, old) ∧
      Inv sl1 (lower key es ++ ⟨id, key, some pos⟩ :: rs) ∧ absGet es key = some old := by
  rcases upper_cases key es with hc | ⟨e, r, hu, hk⟩
  · obtain ⟨heap1, h1, h2⟩ := put_insert_spec h key pos rnd hc
    exact ⟨_, none, _, _, h1, h2, absGet_absent hc⟩
  · obtain ⟨old, heap1, h0, h1, h2⟩ := put_update_spec h key pos rnd hu hk
    refine ⟨_, old, e.id, r, h1, hk ▸ h2, ?_⟩
    simp [absGet, hu, firstHit, hk, h0]

/-- The entry for `K` is what the search for `K` stops in front of. -/
theorem upper_at {key : List Byte} {lo rs : List Entry} {x : Entry} (hk : x.key = key)
    (hs : (lo ++ x :: rs).Pairwise (fun a b => bytesCompare a.key b.key < 0)) :
    upper key (lo ++ x :: rs) = x :: rs ∧ lower key (lo ++ x :: rs) = lo := by
  have h1 : ∀ e ∈ lo, below key e = true := by
    intro e he
    have h2 := (sorted_split hs).1 e he
    simp [below, ← hk, h2]
  exact ⟨upper_append_of x rs h1 (not_below_self key x hk),
    lower_append_of x rs h1 (not_below_self key x hk)⟩

/-! ## Sample lists -/

theorem demoOne_reachable : Reachable demoOne :=
  Reachable.put Reachable.new
    (show Put NewSkipList [98] (some 1) (fun _ => 0) = some (demoOne, none) from by decide)

theorem demoTwo_reachable : Reachable demoTwo :=
  Reachable.put demoOne_reachable
    (show Put demoOne [] (some 2) (fun _ => 40000) = some (demoTwo, none) from by decide)

/-! ## The contract of `Put`, `Get` and `Delete` -/

/-- C1 (Put-then-Get): on every list reachable from `NewSkipList()` by `Put` and
`Delete` calls, for every key `K` (the empty one included) and every position
`P` (nil included), `Put(K, P)` returns and a following `Get(K)` returns `P`. -/
theorem put_then_get (sl : SkipList) (h : Reachable sl) (K : List Byte)
    (P : LogRecordPosPtr) (rnd : Nat → Nat) :
    ∃ sl1 old, Put sl K P rnd = some (sl1, old) ∧ Get sl1 K = some P := by
  obtain ⟨es, hinv⟩ := reachable_inv h
  obtain ⟨sl1, old, id, rs, h1, h2, _⟩ := put_lands hinv K P rnd
  refine ⟨sl1, old, h1, ?_⟩
  rw [get_spec h2, absGet, (upper_at rfl h2.sorted).1]
  simp [firstHit]

theorem put_then_get_witness :
    Reachable demoTwo ∧
      ∃ sl1 old, Put demoTwo [] none (fun _ => 7) = some (sl1, old) ∧
        Get sl1 [] = some none :=
  ⟨demoTwo_reachable, put_then_get demoTwo demoTwo_reachable [] none (fun _ => 7)⟩

/-- C2 (update semantics): on every reachable list, after `Put(K, P1)` a second
`Put(K, P2)` returns `P1`, a following `Get(K)` returns `P2`, and the second call
adds no node: `Size()`, the keys of the level-0 chain and the nodes of the
level-0 chain are the same before and after it. -/
theorem put_twice_updates (sl : SkipList) (h : Reachable sl) (K : List Byte)
    (P1 P2 : LogRecordPosPtr) (rnd1 rnd2 : Nat → Nat) :
    ∃ s1 o1 s2, Put sl K P1 rnd1 = some (s1, o1) ∧ Put s1 K P2 rnd2 = some (s2, P1) ∧
      Get s2 K = some P2 ∧ Size s2 = Size s1 ∧
      (∃ ks, keysAt s1 0 = some ks ∧ keysAt s2 0 = some ks) ∧
      (∃ ids, idsAt s1 0 = some ids ∧ idsAt s2 0 = some ids) := by
  obtain ⟨es, hinv⟩ := reachable_inv h
  obtain ⟨s1, o1, id, rs, h1, h2, _⟩ := put_lands hinv K P1 rnd1
  obtain ⟨hu, hlo⟩ := upper_at (x := ⟨id, K, some P1⟩) rfl h2.sorted
  obtain ⟨old, heap1, h3, h4, h5⟩ := put_update_spec h2 K P2 rnd2 hu rfl
  rw [hlo] at h5
  have hold : old = P1 := by
    simp only [Option.some.injEq] at h3
    exact h3.symm
  subst hold
  have h0 : 0 < maxLevel := by decide
  refine ⟨s1, o1, _, h1, h4, ?_, rfl, ⟨_, keysAt_spec h2 h0, ?_⟩, ⟨_, idsAt_spec h2 h0, ?_⟩⟩
  · rw [get_spec h5, absGet, (upper_at rfl h5.sorted).1]
    simp [firstHit]
  · rw [keysAt_spec h5 h0]; simp
  · rw [idsAt_spec h5 h0]; simp

theorem put_twice_updates_witness :
    Reachable demoTwo ∧
      ∃ s1 o1 s2, Put demoTwo [97] (some 5) (fun _ => 1) = some (s1, o1) ∧
        Put s1 [97] (some 6) (fun _ => 2) = some (s2, some 5) ∧
        Get s2 [97] = some (some 6) ∧ Size s2 = Size s1 ∧
        (∃ ks, keysAt s1 0 = some ks ∧ keysAt s2 0 = some ks) ∧
        (∃ ids, idsAt s1 0 = some ids ∧ idsAt s2 0 = some ids) :=
  ⟨demoTwo_reachable,
    put_twice_updates demoTwo demoTwo_reachable [97] (some 5) (some 6) (fun _ => 1) (fun _ => 2)⟩

/-- C3 (Delete removes visibility): on every reachable list, after `Put(K, P)`
the call `Delete(K)` returns `(P, true)`; after it `Get(K)` returns nil, a second
`Delete(K)` returns `(nil, false)` and changes nothing, and `Size()` is exactly
one less than just before the first `Delete`. -/
theorem put_delete_hides (sl : SkipList) (h : Reachable sl) (K : List Byte)
    (P : LogRecordPosPtr) (rnd : Nat → Nat) :
    ∃ s1 o1 s2, Put sl K P rnd = some (s1, o1) ∧ Delete s1 K = some (s2, P, true) ∧
      Get s2 K = some none ∧ Delete s2 K = some (s2, none, false) ∧
      Size s2 = Size s1 - 1 := by
  obtain ⟨es, hinv⟩ := reachable_inv h
  obtain ⟨s1, o1, id, rs, h1, h2, _⟩ := put_lands hinv K P rnd
  obtain ⟨hu, hlo⟩ := upper_at (x := ⟨id, K, some P⟩) rfl h2.sorted
  obtain ⟨old, heap1, h3, h4, h5⟩ := delete_present_spec h2 K hu rfl
  rw [hlo] at h5
  have hold : old = P := by
    simp only [Option.some.injEq] at h3
    exact h3.symm
  subst hold
  have hne : ∀ e ∈ lower K es ++ rs, e.key ≠ K := by
    intro e he
    obtain ⟨ha, hb⟩ := sorted_split h2.sorted
    rcases List.mem_append.mp he with h6 | h6
    · exact key_ne_of_lt (ha e h6)
    · exact Ne.symm (key_ne_of_lt (hb e h6))
  have habs := absent_of_keys_ne hne
  refine ⟨s1, o1, _, h1, h4, ?_, delete_absent_spec h5 K habs, rfl⟩
  rw [get_spec h5]
  exact absGet_absent habs

theorem put_delete_hides_witness :
    Reachable demoTwo ∧
      ∃ s1 o1 s2, Put demoTwo [98] (some 9) (fun _ => 3) = some (s1, o1) ∧
        Delete s1 [98] = some (s2, some 9, true) ∧
        Get s2 [98] = some none ∧ Delete s2 [98] = some (s2, none, false) ∧
        Size s2 = Size s1 - 1 :=
  ⟨demoTwo_reachable, put_delete_hides demoTwo demoTwo_reachable [98] (some 9) (fun _ => 3)⟩

theorem mem_cells_of_mem {es : List Entry} {e : Entry} (he : e ∈ es) :
    ∃ x ∈ cells es, x.1 = e.id ∧ x.2.key = e.key ∧ x.2.value = e.value := by
  induction es with
  | nil => cases he
  | cons a es ih =>
    rcases List.mem_cons.mp he with h | h
    · subst h; exact ⟨_, List.mem_cons_self _ _, rfl, rfl, rfl⟩
    · obtain ⟨x, h1, h2⟩ := ih h
      exact ⟨x, List.mem_cons_of_mem _ h1, h2⟩

/-- C4 (Put distinguishes absence from presence): on every reachable list whose
stored positions are all non-nil, for every key `K` and every position `P`
(non-nil or not), `Put(K, P)` returns nil if and only if `K` is not a key of the
level-0 chain before the call; when `K` is present, `Put` returns exactly the
position stored in the node of `K` before the call. -/
theorem put_reports_presence (sl : SkipList) (h : Reachable sl)
    (ch : List (Nat × Node)) (hch : chainAt sl 0 = some ch)
    (hnn : ∀ x ∈ ch, x.2.value ≠ some none)
    (K : List Byte) (P : LogRecordPosPtr) (rnd : Nat → Nat) :
    ∃ sl1 old, Put sl K P rnd = some (sl1, old) ∧
      (old = none ↔ K ∉ ch.map (fun x => x.2.key)) ∧
      (∀ x ∈ ch, x.2.key = K → x.2.value = some old) := by
  obtain ⟨es, hinv⟩ := reachable_inv h
  rw [chainAt_spec hinv (by decide)] at hch
  cases hch
  rcases upper_cases K es with hc | ⟨e, r, hu, hk⟩
  · obtain ⟨heap1, h1, _⟩ := put_insert_spec hinv K P rnd hc
    have habs : ∀ x ∈ cells es, x.2.key ≠ K := by
      intro x hx hkx
      obtain ⟨e, he, _, h3, _⟩ := mem_cells hx
      obtain ⟨r, hu⟩ := mem_key_upper hinv.sorted he (h3 ▸ hkx)
      exact hc e r hu (h3 ▸ hkx)
    refine ⟨_, none, h1, ?_, fun x hx hkx => absurd hkx (habs x hx)⟩
    simp only [true_iff, List.mem_map, not_exists, not_and]
    exact fun x hx => habs x hx
  · obtain ⟨old, heap1, h0, h1, _⟩ := put_update_spec hinv K P rnd hu hk
    have he : e ∈ es := by
      rw [← lower_append_upper K es, hu]; simp
    obtain ⟨x, hx, _, hxk, hxv⟩ := mem_cells_of_mem he
    refine ⟨_, old, h1, ?_, ?_⟩
    · constructor
      · intro ho
        have h2 := hnn x hx
        rw [hxv, h0, ho] at h2
        exact absurd rfl h2
      · intro hno
        exact absurd (List.mem_map.mpr ⟨x, hx, hxk.trans hk⟩) hno
    · intro y hy hyk
      obtain ⟨e1, he1, _, h3, h4⟩ := mem_cells hy
      obtain ⟨r1, hu1⟩ := mem_key_upper hinv.sorted he1 (h3 ▸ hyk)
      rw [hu] at hu1
      cases hu1
      rw [h4, h0]

theorem put_reports_presence_witness :
    Reachable demoTwo ∧
      chainAt demoTwo 0 = some (cells [⟨2, [], some (some 2)⟩, ⟨1, [98], some (some 1)⟩]) ∧
      (∀ x ∈ cells [⟨2, [], some (some 2)⟩, ⟨1, [98], some (some 1)⟩],
        x.2.value ≠ some none) ∧
      ∃ sl1 old, Put demoTwo [98] (some 3) (fun _ => 0) = some (sl1, old) ∧
        (old = none ↔ [98] ∉
          (cells [⟨2, [], some (some 2)⟩, ⟨1, [98], some (some 1)⟩]).map (fun x => x.2.key)) ∧
        (∀ x ∈ cells [⟨2, [], some (some 2)⟩, ⟨1, [98], some (some 1)⟩],
          x.2.key = [98] → x.2.value = some old) :=
  ⟨demoTwo_reachable, by decide, by decide,
    put_reports_presence demoTwo demoTwo_reachable
      (cells [⟨2, [], some (some 2)⟩, ⟨1, [98], some (some 1)⟩]) (by decide) (by decide)
      [98] (some 3) (fun _ => 0)⟩

/-- C5 (Delete of an absent key is a no-op): on every reachable list, for every
key `K` that is not a key of the level-0 chain, `Delete(K)` returns
`(nil, false)` and the list after the call is the list before it: the same
heap, hence the same chain at every level, the same level and the same `Size()`. -/
theorem delete_absent_noop (sl : SkipList) (h : Reachable sl) (K : List Byte)
    (ks : List (List Byte)) (hks : keysAt sl 0 = some ks) (hK : K ∉ ks) :
    Delete sl K = some (sl, none, false) := by
  obtain ⟨es, hinv⟩ := reachable_inv h
  rw [keysAt_spec hinv (by decide)] at hks
  cases hks
  refine delete_absent_spec hinv K (absent_of_keys_ne ?_)
  intro e he hk
  exact hK (List.mem_map.mpr ⟨e, he, hk⟩)

theorem delete_absent_noop_witness :
    Reachable demoTwo ∧ keysAt demoTwo 0 = some [[], [98]] ∧ [97] ∉ [[], [98]] ∧
      Delete demoTwo [97] = some (demoTwo, none, false) :=
  ⟨demoTwo_reachable, by decide, by decide,
    delete_absent_noop demoTwo demoTwo_reachable [97] [[], [98]] (by decide) (by decide)⟩

/-- C6 (Delete of a present key returns what it removed): on every reachable
list, when `K` is the key of a node `x` of the level-0 chain and `Get(K)` is `P`,
`Delete(K)` returns `(P, true)`, and afterwards, at every level `0 .. maxLevel-1`,
the chain from the head contains neither the node `x` nor any node with key `K`. -/
theorem delete_present_unlinks (sl : SkipList) (h : Reachable sl) (K : List Byte)
    (P : LogRecordPosPtr) (ch : List (Nat × Node)) (hch : chainAt sl 0 = some ch)
    (x : Nat × Node) (hx : x ∈ ch) (hk : x.2.key = K) (hget : Get sl K = some P) :
    ∃ sl1, Delete sl K = some (sl1, P, true) ∧
      ∀ i, i < maxLevel → ∃ ch1, chainAt sl1 i = some ch1 ∧
        x.1 ∉ ch1.map (fun y => y.1) ∧ K ∉ ch1.map (fun y => y.2.key) := by
  obtain ⟨es, hinv⟩ := reachable_inv h
  rw [chainAt_spec hinv (by decide)] at hch
  cases hch
  obtain ⟨e, he, hid, hek, _⟩ := mem_cells hx
  have hkey : e.key = K := hek ▸ hk
  obtain ⟨r, hu⟩ := mem_key_upper hinv.sorted he hkey
  obtain ⟨old, heap1, h0, h1, h2⟩ := delete_present_spec hinv K hu hkey
  have hold : old = P := by
    rw [get_spec hinv, absGet, hu] at hget
    simp only [firstHit, hkey, if_true] at hget
    rw [h0] at hget
    exact Option.some.inj hget
  subst hold
  have hes : es = lower K es ++ e :: r := by
    rw [← hu]; exact (lower_append_upper K es).symm
  refine ⟨_, h1, fun i hi => ⟨_, chainAt_spec h2 hi, ?_, ?_⟩⟩
  · rw [cells_ids, hid]
    have hnd := hinv.nodup
    rw [hes] at hnd
    have h3 : ((lower K es ++ e :: r).map Entry.id).Nodup := (List.nodup_cons.mp hnd).2
    rw [List.map_append, List.map_cons] at h3
    have h4 := (List.perm_middle.nodup_iff.mp h3)
    rw [List.map_append]
    exact (List.nodup_cons.mp h4).1
  · rw [cells_keys]
    have hs := hinv.sorted
    rw [hes] at hs
    obtain ⟨ha, hb⟩ := sorted_split hs
    intro hc
    obtain ⟨y, hy, hyk⟩ := List.mem_map.mp hc
    rcases List.mem_append.mp hy with h6 | h6
    · exact key_ne_of_lt (ha y h6) (hyk.trans hkey.symm)
    · exact key_ne_of_lt (hb y h6) (hkey.trans hyk.symm)

theorem delete_present_unlinks_witness :
    Reachable demoTwo ∧
      chainAt demoTwo 0 = some (cells [⟨2, [], some (some 2)⟩, ⟨1, [98], some (some 1)⟩]) ∧
      ((2, cell ⟨2, [], some (some 2)⟩ (some 1)) ∈
        cells [⟨2, [], some (some 2)⟩, ⟨1, [98], some (some 1)⟩]) ∧
      Get demoTwo [] = some (some 2) ∧
      ∃ sl1, Delete demoTwo [] = some (sl1, some 2, true) ∧
        ∀ i, i < maxLevel → ∃ ch1, chainAt sl1 i = some ch1 ∧
          2 ∉ ch1.map (fun y => y.1) ∧ [] ∉ ch1.map (fun y => y.2.key) :=
  ⟨demoTwo_reachable, by decide, by decide, by decide,
    delete_present_unlinks demoTwo demoTwo_reachable [] (some 2)
      (cells [⟨2, [], some (some 2)⟩, ⟨1, [98], some (some 1)⟩]) (by decide)
      (2, cell ⟨2, [], some (some 2)⟩ (some 1)) (by decide) rfl (by decide)⟩

/-! ## Invariants of the reachable lists -/

/-- C7 (ordering invariant): in every list reachable from `NewSkipList()` by `Put`
and `Delete` calls, at every level `L` below the level of the list, the keys met
by following `forward[L]` links from the head are strictly increasing in the
order of `bytes.Compare`, so that no key occurs twice. -/
theorem chains_strictly_increasing (sl : SkipList) (h : Reachable sl) (L : Nat)
    (hL : L < sl.level) :
    ∃ ks, keysAt sl L = some ks ∧ ks.Pairwise (fun a b => bytesCompare a b < 0) ∧
      ks.Nodup := by
  obtain ⟨es, hinv⟩ := reachable_inv h
  have hL2 : L < maxLevel := lt_of_lt_of_le hL (inv_level_pos hinv).2
  have hs : (es.map Entry.key).Pairwise (fun a b => bytesCompare a b < 0) :=
    List.pairwise_map.mpr hinv.sorted
  exact ⟨_, keysAt_spec hinv hL2, hs, hs.imp (fun hab => key_ne_of_lt hab)⟩

theorem chains_strictly_increasing_witness :
    Reachable demoTwo ∧ 17 < demoTwo.level ∧
      ∃ ks, keysAt demoTwo 17 = some ks ∧ ks.Pairwise (fun a b => bytesCompare a b < 0) ∧
        ks.Nodup :=
  ⟨demoTwo_reachable, by decide,
    chains_strictly_increasing demoTwo demoTwo_reachable 17 (by decide)⟩

/-- C8 (size invariant): in every list reachable from `NewSkipList()` by `Put` and
`Delete` calls, `Size()` is the number of nodes met by following level-0 links
from the head; it is never negative, and it is 0 for a new list. -/
theorem size_counts_chain (sl : SkipList) (h : Reachable sl) :
    (∃ ch, chainAt sl 0 = some ch ∧ Size sl = (ch.length : Int)) ∧ 0 ≤ Size sl ∧
      Size NewSkipList = 0 := by
  obtain ⟨es, hinv⟩ := reachable_inv h
  refine ⟨⟨_, chainAt_spec hinv (by decide), ?_⟩, ?_, rfl⟩
  · rw [cells_length]; exact hinv.size
  · show 0 ≤ sl.length
    rw [hinv.size]; exact Int.natCast_nonneg _

theorem size_counts_chain_witness :
    Reachable demoTwo ∧
      (∃ ch, chainAt demoTwo 0 = some ch ∧ Size demoTwo = (ch.length : Int)) ∧
      0 ≤ Size demoTwo ∧ Size NewSkipList = 0 :=
  ⟨demoTwo_reachable, size_counts_chain demoTwo demoTwo_reachable⟩

/-! ## Seek -/

/-- The binary search of `sort.Search` on a predicate that is monotone on
`[0, n)`: it returns the smallest index at which the predicate holds, or `n`. -/
theorem searchLoop_spec (f : Nat → Option Bool) (p : Nat → Bool) (n : Nat)
    (hf : ∀ h, h < n → f h = some (p h))
    (hmono : ∀ a b, a ≤ b → b < n → p a = true → p b = true) :
    ∀ (fuel i j : Nat), i ≤ j → j ≤ n → j - i ≤ fuel →
      (∀ h, h < i → p h = false) → (∀ h, j ≤ h → h < n → p h = true) →
      ∃ m, searchLoop f fuel i j = some m ∧ m ≤ n ∧
        (∀ h, h < m → p h = false) ∧ (∀ h, m ≤ h → h < n → p h = true) := by
  intro fuel
  induction fuel with
  | zero =>
    intro i j hij hjn hfu hlo hhi
    have h1 : i = j := by omega
    subst h1
    exact ⟨i, by simp [searchLoop], hjn, hlo, hhi⟩
  | succ fuel ih =>
    intro i j hij hjn hfu hlo hhi
    by_cases hlt : i < j
    · have hm1 : i ≤ (i + j) / 2 := by omega
      have hm2 : (i + j) / 2 < j := by omega
      have hfm := hf ((i + j) / 2) (by omega)
      cases hp : p ((i + j) / 2) with
      | false =>
        obtain ⟨m, h1, h2⟩ := ih ((i + j) / 2 + 1) j (by omega) hjn (by omega)
          (fun h hh => by
            cases hph : p h with
            | false => rfl
            | true =>
              have h3 := hmono h ((i + j) / 2) (by omega) (by omega) hph
              rw [hp] at h3; cases h3)
          hhi
        refine ⟨m, ?_, h2⟩
        simp only [searchLoop, if_pos hlt, hfm, hp]
        exact h1
      | true =>
        obtain ⟨m, h1, h2⟩ := ih i ((i + j) / 2) hm1 (by omega) (by omega) hlo
          (fun h hh hn => hmono ((i + j) / 2) h hh hn hp)
        refine ⟨m, ?_, h2⟩
        simp only [searchLoop, if_pos hlt, hfm, hp]
        exact h1
    · have h1 : i = j := by omega
      subst h1
      exact ⟨i, by simp [searchLoop], hjn, hlo, hhi⟩

theorem pairwise_getElem? {α : Type} {R : α → α → Prop} {l : List α}
    (h : l.Pairwise R) {a b : Nat} {x y : α} (hx : l[a]? = some x) (hy : l[b]? = some y)
    (hab : a < b) : R x y := by
  induction l generalizing a b with
  | nil => simp at hx
  | cons z l ih =>
    obtain ⟨c, rfl⟩ : ∃ c, b = c + 1 := ⟨b - 1, by omega⟩
    rw [List.getElem?_cons_succ] at hy
    cases a with
    | zero =>
      simp only [List.getElem?_cons_zero, Option.some.injEq] at hx
      subst hx
      exact (List.pairwise_cons.mp h).1 y (List.getElem?_mem hy)
    | succ a =>
      rw [List.getElem?_cons_succ] at hx
      exact ih (List.pairwise_cons.mp h).2 hx hy (by omega)

theorem keyAt_items (it : skiplistIterator) (items : List Item)
    (hv : it.values = items.map some) (i : Nat) :
    it.keyAt i = (items[i]?).map Item.key := by
  simp only [skiplistIterator.keyAt, hv, List.getElem?_map]
  cases items[i]? <;> rfl

/-- The binary search of `Seek` over a sequence without nil elements, for a test
`q` on keys that, once true, stays true further on in the sequence. -/
theorem search_items (it : skiplistIterator) (items : List Item)
    (hv : it.values = items.map some) (q : List Byte → Bool)
    (hmono : ∀ (a b : Nat) (x y : Item), a ≤ b → items[a]? = some x → items[b]? = some y →
      q x.key = true → q y.key = true) :
    ∃ m, Search it.values.length (fun i => (it.keyAt i).map q) = some m ∧
      m ≤ items.length ∧
      (∀ j x, items[j]? = some x → j < m → q x.key = false) ∧
      (∀ j x, items[j]? = some x → m ≤ j → q x.key = true) := by
  have hlen : it.values.length = items.length := by rw [hv]; simp
  have hf : ∀ h, h < items.length →
      (fun i => (it.keyAt i).map q) h =
        some ((fun i => match items[i]? with
          | some x => q x.key
          | none => false) h) := by
    intro h hh
    simp only [keyAt_items it items hv, List.getElem?_eq_getElem hh, Option.map_some']
  obtain ⟨m, h1, h2, h3, h4⟩ := searchLoop_spec (fun i => (it.keyAt i).map q)
    (fun i => match items[i]? with
      | some x => q x.key
      | none => false) items.length hf
    (by
      intro a b hab hb hpa
      have ha : a < items.length := by omega
      simp only [List.getElem?_eq_getElem ha] at hpa
      simp only [List.getElem?_eq_getElem hb]
      exact hmono a b _ _ hab (List.getElem?_eq_getElem ha) (List.getElem?_eq_getElem hb) hpa)
    items.length 0 items.length (Nat.zero_le _) (le_refl _) (by omega)
    (fun h hh => absurd hh (Nat.not_lt_zero h))
    (fun h h5 h6 => absurd h6 (by omega))
  refine ⟨m, ?_, h2, ?_, ?_⟩
  · rw [hlen]; exact h1
  · intro j x hx hj
    have h5 := h3 j hj
    simp only [hx] at h5
    exact h5
  · intro j x hx hj
    have hjl : j < items.length := by
      by_contra hc
      rw [List.getElem?_eq_none (not_lt.mp hc)] at hx
      cases hx
    have h5 := h4 j hj hjl
    simp only [hx] at h5
    exact h5

/-- C9 (forward Seek): for a forward iterator whose materialized sequence has no
nil element and strictly increasing keys, whatever the cursor was, `Seek(k)`
returns and sets the cursor to the smallest index whose key is `>= k`: every
element before the cursor has a key `< k`, every element from the cursor on has
a key `>= k`; the cursor is `len(values)`, and `Valid()` false, exactly when no
element has a key `>= k`. Over the keys "a", "c", "e", `Seek("b")` leaves the
cursor on index 1, the element "c". -/
theorem seek_forward (it : skiplistIterator) (hrev : it.reverse = false)
    (items : List Item) (hv : it.values = items.map some)
    (hs : items.Pairwise (fun a b => bytesCompare a.key b.key < 0)) (k : List Byte) :
    (∃ m : Nat, it.Seek k = some { it with currIndex := (m : Int) } ∧
      m ≤ items.length ∧
      (∀ j x, items[j]? = some x → j < m → bytesCompare x.key k < 0) ∧
      (∀ j x, items[j]? = some x → m ≤ j → 0 ≤ bytesCompare x.key k) ∧
      (m = items.length ↔ ∀ x ∈ items, bytesCompare x.key k < 0) ∧
      (skiplistIterator.Valid { it with currIndex := (m : Int) } = decide (m < items.length))) ∧
    skiplistIterator.Seek ⟨2, false, aceValues⟩ [98] = some ⟨1, false, aceValues⟩ ∧
    skiplistIterator.keyAt ⟨1, false, aceValues⟩ 1 = some [99] := by
  refine ⟨?_, by decide, by decide⟩
  obtain ⟨m, h1, h2, h3, h4⟩ := search_items it items hv
    (fun k1 => decide (bytesCompare k1 k ≥ 0))
    (by
      intro a b x y hab hx hy hq
      simp only [ge_iff_le, decide_eq_true_eq] at hq ⊢
      rcases Nat.eq_or_lt_of_le hab with h5 | h5
      · subst h5
        rw [hx] at hy
        cases hy
        exact hq
      · have h6 := pairwise_getElem? hs hx hy h5
        by_contra hc
        have h7 := bytesCompare_lt_trans h6 (not_le.mp hc)
        omega)
  have hlen : it.values.length = items.length := by rw [hv]; simp
  refine ⟨m, ?_, h2, ?_, ?_, ?_, ?_⟩
  · simp only [skiplistIterator.Seek, hrev, Bool.false_eq_true, if_false, h1]
  · intro j x hx hj
    have h5 := h3 j x hx hj
    simp only [ge_iff_le, decide_eq_false_iff_not, not_le] at h5
    exact h5
  · intro j x hx hj
    have h5 := h4 j x hx hj
    simp only [ge_iff_le, decide_eq_true_eq] at h5
    exact h5
  · constructor
    · intro hm x hx
      obtain ⟨j, hj⟩ := List.mem_iff_getElem?.mp hx
      have hjl : j < items.length := by
        by_contra hc
        rw [List.getElem?_eq_none (not_lt.mp hc)] at hj
        cases hj
      have h5 := h3 j x hj (by omega)
      simp only [ge_iff_le, decide_eq_false_iff_not, not_le] at h5
      exact h5
    · intro hall
      by_contra hc
      have hml : m < items.length := by omega
      have h5 := h4 m _ (List.getElem?_eq_getElem hml) (le_refl _)
      have h6 := hall _ (List.getElem_mem hml)
      simp only [ge_iff_le, decide_eq_true_eq] at h5
      omega
  · simp only [skiplistIterator.Valid, hlen, Nat.cast_lt]

theorem seek_forward_witness :
    (false = false) ∧ aceValues = List.map some [⟨[97], some 1⟩, ⟨[99], some 2⟩, ⟨[101], some 3⟩] ∧
    List.Pairwise (fun a b => bytesCompare a.key b.key < 0)
      ([⟨[97], some 1⟩, ⟨[99], some 2⟩, ⟨[101], some 3⟩] : List Item) ∧
    (∃ m : Nat, skiplistIterator.Seek ⟨7, false, aceValues⟩ [100] =
        some { (⟨7, false, aceValues⟩ : skiplistIterator) with currIndex := (m : Int) } ∧
      m ≤ 3 ∧ m = 2) :=
  ⟨rfl, rfl, by decide, by
    obtain ⟨⟨m, h1, h2, h3, h4, h5, h6⟩, _⟩ := seek_forward ⟨7, false, aceValues⟩ rfl
      [⟨[97], some 1⟩, ⟨[99], some 2⟩, ⟨[101], some 3⟩] rfl (by decide) [100]
    refine ⟨m, h1, h2, ?_⟩
    have h9 : ¬ m ≤ 1 := fun hm => by
      have := h4 1 ⟨[99], some 2⟩ rfl hm
      revert this; decide
    have h10 : ¬ 2 < m := fun hm => by
      have := h3 2 ⟨[101], some 3⟩ rfl hm
      revert this; decide
    omega⟩

/-- C10 (reverse Seek): for a reverse iterator whose materialized sequence has no
nil element and strictly decreasing keys, whatever the cursor was, `Seek(k)`
returns and sets the cursor to the smallest index whose key is `<= k`: every
element before the cursor has a key `> k`, every element from the cursor on has
a key `<= k`; the cursor is `len(values)`, and `Valid()` false, exactly when no
element has a key `<= k`. Over the sequence "e", "c", "a", `Seek("d")` leaves the
cursor on index 1, the element "c". -/
theorem seek_reverse (it : skiplistIterator) (hrev : it.reverse = true)
    (items : List Item) (hv : it.values = items.map some)
    (hs : items.Pairwise (fun a b => bytesCompare b.key a.key < 0)) (k : List Byte) :
    (∃ m : Nat, it.Seek k = some { it with currIndex := (m : Int) } ∧
      m ≤ items.length ∧
      (∀ j x, items[j]? = some x → j < m → 0 < bytesCompare x.key k) ∧
      (∀ j x, items[j]? = some x → m ≤ j → bytesCompare x.key k ≤ 0) ∧
      (m = items.length ↔ ∀ x ∈ items, 0 < bytesCompare x.key k) ∧
      (skiplistIterator.Valid { it with currIndex := (m : Int) } = decide (m < items.length))) ∧
    skiplistIterator.Seek ⟨0, true, ecaValues⟩ [100] = some ⟨1, true, ecaValues⟩ ∧
    skiplistIterator.keyAt ⟨1, true, ecaValues⟩ 1 = some [99] := by
  refine ⟨?_, by decide, by decide⟩
  obtain ⟨m, h1, h2, h3, h4⟩ := search_items it items hv
    (fun k1 => decide (bytesCompare k1 k ≤ 0))
    (by
      intro a b x y hab hx hy hq
      simp only [decide_eq_true_eq] at hq ⊢
      rcases Nat.eq_or_lt_of_le hab with h5 | h5
      · subst h5
        rw [hx] at hy
        cases hy
        exact hq
      · have h6 := pairwise_getElem? hs hx hy h5
        rcases lt_or_eq_of_le hq with h7 | h7
        · exact le_of_lt (bytesCompare_lt_trans h6 h7)
        · rw [← eq_of_bytesCompare_eq_zero h7]
          exact le_of_lt h6)
  have hlen : it.values.length = items.length := by rw [hv]; simp
  refine ⟨m, ?_, h2, ?_, ?_, ?_, ?_⟩
  · simp only [skiplistIterator.Seek, hrev, if_true, h1]
  · intro j x hx hj
    have h5 := h3 j x hx hj
    simp only [decide_eq_false_iff_not, not_le] at h5
    exact h5
  · intro j x hx hj
    have h5 := h4 j x hx hj
    simp only [decide_eq_true_eq] at h5
    exact h5
  · constructor
    · intro hm x hx
      obtain ⟨j, hj⟩ := List.mem_iff_getElem?.mp hx
      have hjl : j < items.length := by
        by_contra hc
        rw [List.getElem?_eq_none (not_lt.mp hc)] at hj
        cases hj
      have h5 := h3 j x hj (by omega)
      simp only [decide_eq_false_iff_not, not_le] at h5
      exact h5
    · intro hall
      by_contra hc
      have hml : m < items.length := by omega
      have h5 := h4 m _ (List.getElem?_eq_getElem hml) (le_refl _)
      have h6 := hall _ (List.getElem_mem hml)
      simp only [decide_eq_true_eq] at h5
      omega
  · simp only [skiplistIterator.Valid, hlen, Nat.cast_lt]

theorem seek_reverse_witness :
    (true = true) ∧ ecaValues = List.map some [⟨[101], some 3⟩, ⟨[99], some 2⟩, ⟨[97], some 1⟩] ∧
    List.Pairwise (fun a b => bytesCompare b.key a.key < 0)
      ([⟨[101], some 3⟩, ⟨[99], some 2⟩, ⟨[97], some 1⟩] : List Item) ∧
    (∃ m : Nat, skiplistIterator.Seek ⟨-4, true, ecaValues⟩ [98] =
        some { (⟨-4, true, ecaValues⟩ : skiplistIterator) with currIndex := (m : Int) } ∧
      m ≤ 3 ∧ m = 2) :=
  ⟨rfl, rfl, by decide, by
    obtain ⟨⟨m, h1, h2, h3, h4, h5, h6⟩, _⟩ := seek_reverse ⟨-4, true, ecaValues⟩ rfl
      [⟨[101], some 3⟩, ⟨[99], some 2⟩, ⟨[97], some 1⟩] rfl (by decide) [98]
    refine ⟨m, h1, h2, ?_⟩
    have h9 : ¬ m ≤ 1 := fun hm => by
      have := h4 1 ⟨[99], some 2⟩ rfl hm
      revert this; decide
    have h10 : ¬ 2 < m := fun hm => by
      have := h3 2 ⟨[97], some 1⟩ rfl hm
      revert this; decide
    omega⟩

/-! ## Other keys -/

theorem lookup_append_cons_ne {key : List Byte} (lo rs : List Entry) {x : Entry}
    (h : x.key ≠ key) : lookup key (lo ++ x :: rs) = lookup key (lo ++ rs) := by
  induction lo with
  | nil => simp [lookup, h]
  | cons a lo ih =>
    show (if a.key = key then a.value else lookup key (lo ++ x :: rs)) =
      (if a.key = key then a.value else lookup key (lo ++ rs))
    rw [ih]

theorem lookup_absent {key : List Byte} {es : List Entry} (h : ∀ e ∈ es, e.key ≠ key) :
    lookup key es = some none := by
  induction es with
  | nil => rfl
  | cons a es ih =>
    simp only [lookup, h a (List.mem_cons_self _ _), if_false]
    exact ih (fun e he => h e (List.mem_cons_of_mem _ he))

theorem lookup_of_mem {es : List Entry}
    (hs : es.Pairwise (fun a b => bytesCompare a.key b.key < 0)) {e : Entry} (he : e ∈ es) :
    lookup e.key es = e.value := by
  induction es with
  | nil => cases he
  | cons a es ih =>
    rcases List.mem_cons.mp he with h | h
    · subst h; simp [lookup]
    · have h1 : a.key ≠ e.key := key_ne_of_lt ((List.pairwise_cons.mp hs).1 e h)
      simp only [lookup, h1, if_false]
      exact ih (List.pairwise_cons.mp hs).2 h

/-- On a sorted list the search of `Get` finds what a scan from the front finds. -/
theorem absGet_eq_lookup {es : List Entry}
    (hs : es.Pairwise (fun a b => bytesCompare a.key b.key < 0)) (key : List Byte) :
    absGet es key = lookup key es := by
  by_cases h : ∃ e ∈ es, e.key = key
  · obtain ⟨e, he, hk⟩ := h
    obtain ⟨r, hu⟩ := mem_key_upper hs he hk
    rw [absGet, hu, ← hk, lookup_of_mem hs he]
    simp [firstHit]
  · have h1 : ∀ e ∈ es, e.key ≠ key := fun e he hk => h ⟨e, he, hk⟩
    rw [absGet_absent (absent_of_keys_ne h1), lookup_absent h1]

theorem lookup_isSome {es : List Entry} (h : ∀ e ∈ es, e.value ≠ none) (key : List Byte) :
    ∃ v, lookup key es = some v := by
  induction es with
  | nil => exact ⟨none, rfl⟩
  | cons a es ih =>
    by_cases hk : a.key = key
    · obtain ⟨v, hv⟩ := Option.ne_none_iff_exists'.mp (h a (List.mem_cons_self _ _))
      exact ⟨v, by simp [lookup, hk, hv]⟩
    · simp only [lookup, hk, if_false]
      exact ih (fun e he => h e (List.mem_cons_of_mem _ he))

/-- C14 (other keys are untouched): on every reachable list, for all keys `K` and
`K'` with `K'` different from `K` and every position `P`, `Get(K')` returns, and
returns the same result after `Put(K, P)` as before it, and the same result after
`Delete(K)` as before it. -/
theorem other_keys_untouched (sl : SkipList) (h : Reachable sl) (K K' : List Byte)
    (hne : K' ≠ K) (P : LogRecordPosPtr) (rnd : Nat → Nat) :
    (∃ v, Get sl K' = some v) ∧
    (∃ sl1 old, Put sl K P rnd = some (sl1, old) ∧ Get sl1 K' = Get sl K') ∧
    (∃ sl2 old existed, Delete sl K = some (sl2, old, existed) ∧ Get sl2 K' = Get sl K') := by
  obtain ⟨es, hinv⟩ := reachable_inv h
  have hget : Get sl K' = lookup K' (lower K es ++ upper K es) := by
    rw [get_spec hinv, absGet_eq_lookup hinv.sorted, lower_append_upper]
  refine ⟨?_, ?_, ?_⟩
  · rw [get_spec hinv, absGet_eq_lookup hinv.sorted]
    exact lookup_isSome hinv.typed K'
  · rcases upper_cases K es with hc | ⟨e, r, hu, hk⟩
    · obtain ⟨heap1, h1, h2⟩ := put_insert_spec hinv K P rnd hc
      refine ⟨_, none, h1, ?_⟩
      rw [get_spec h2, absGet_eq_lookup h2.sorted, hget]
      exact lookup_append_cons_ne _ _ (Ne.symm hne)
    · obtain ⟨old, heap1, _, h1, h2⟩ := put_update_spec hinv K P rnd hu hk
      refine ⟨_, old, h1, ?_⟩
      rw [get_spec h2, absGet_eq_lookup h2.sorted, hget, hu]
      rw [lookup_append_cons_ne (x := ⟨e.id, e.key, some P⟩) _ _ (hk ▸ Ne.symm hne),
        lookup_append_cons_ne (x := e) _ _ (hk ▸ Ne.symm hne)]
  · rcases upper_cases K es with hc | ⟨e, r, hu, hk⟩
    · exact ⟨sl, none, false, delete_absent_spec hinv K hc, rfl⟩
    · obtain ⟨old, heap1, _, h1, h2⟩ := delete_present_spec hinv K hu hk
      refine ⟨_, old, true, h1, ?_⟩
      rw [get_spec h2, absGet_eq_lookup h2.sorted, hget, hu]
      rw [lookup_append_cons_ne (x := e) _ _ (hk ▸ Ne.symm hne)]

theorem other_keys_untouched_witness :
    Reachable demoTwo ∧ ([] : List Byte) ≠ [98] ∧
    (∃ v, Get demoTwo [] = some v) ∧
    (∃ sl1 old, Put demoTwo [98] (some 8) (fun _ => 5) = some (sl1, old) ∧
      Get sl1 [] = Get demoTwo []) ∧
    (∃ sl2 old existed, Delete demoTwo [98] = some (sl2, old, existed) ∧
      Get sl2 [] = Get demoTwo []) :=
  ⟨demoTwo_reachable, by decide,
    other_keys_untouched demoTwo demoTwo_reachable [98] [] (by decide) (some 8) (fun _ => 5)⟩

/-! ## Levels -/

/-- What `Put` does to the level: it returns, and the level of the list after it
is `maxLevel`. -/
theorem put_level {sl : SkipList} {es : List Entry} (hinv : Inv sl es) (K : List Byte)
    (P : LogRecordPosPtr) (rnd : Nat → Nat) :
    ∃ sl1 old, Put sl K P rnd = some (sl1, old) ∧ sl1.level = maxLevel := by
  obtain ⟨sl1, old, id, rs, h1, h2, _⟩ := put_lands hinv K P rnd
  refine ⟨sl1, old, h1, ?_⟩
  rcases h2.lvl with h3 | ⟨_, h3⟩
  · exact h3
  · simp at h3

/-- What `Delete` does to the level: it returns, and leaves the level as it is. -/
theorem delete_level {sl : SkipList} {es : List Entry} (hinv : Inv sl es) (K : List Byte) :
    ∃ sl1 old existed, Delete sl K = some (sl1, old, existed) ∧ sl1.level = sl.level := by
  rcases upper_cases K es with hc | ⟨e, r, hu, hk⟩
  · exact ⟨sl, none, false, delete_absent_spec hinv K hc, rfl⟩
  · obtain ⟨old, heap1, _, h1, _⟩ := delete_present_spec hinv K hu hk
    exact ⟨_, old, true, h1, rfl⟩

/-- C16 (level bounds and monotonicity): in every list reachable from
`NewSkipList()` by `Put` and `Delete` calls the level is between 1 and `maxLevel`
(18); a new list has level 1; every `Put` returns a list whose level is not
smaller, and every `Delete` returns a list with the same level, also when it
removes the last node. -/
theorem level_bounds_monotone (sl : SkipList) (h : Reachable sl) :
    1 ≤ sl.level ∧ sl.level ≤ 18 ∧ NewSkipList.level = 1 ∧
    (∀ K P rnd, ∃ sl1 old, Put sl K P rnd = some (sl1, old) ∧ sl.level ≤ sl1.level) ∧
    (∀ K, ∃ sl1 old existed, Delete sl K = some (sl1, old, existed) ∧
      sl1.level = sl.level) := by
  obtain ⟨es, hinv⟩ := reachable_inv h
  refine ⟨(inv_level_pos hinv).1, (inv_level_pos hinv).2, rfl, ?_, ?_⟩
  · intro K P rnd
    obtain ⟨sl1, old, h1, h2⟩ := put_level hinv K P rnd
    exact ⟨sl1, old, h1, h2 ▸ (inv_level_pos hinv).2⟩
  · intro K
    exact delete_level hinv K

theorem level_bounds_monotone_witness :
    Reachable demoOne ∧
    (1 ≤ demoOne.level ∧ demoOne.level ≤ 18 ∧ NewSkipList.level = 1 ∧
    (∀ K P rnd, ∃ sl1 old, Put demoOne K P rnd = some (sl1, old) ∧
      demoOne.level ≤ sl1.level) ∧
    (∀ K, ∃ sl1 old existed, Delete demoOne K = some (sl1, old, existed) ∧
      sl1.level = demoOne.level)) ∧
    (Delete demoOne [98] = some (demoEmptied, some 1, true) ∧ Size demoEmptied = 0 ∧
      demoEmptied.level = 18) :=
  ⟨demoOne_reachable, level_bounds_monotone demoOne demoOne_reachable,
    ⟨by decide, by decide, by decide⟩⟩

theorem cells_forward {es : List Entry} {x : Nat × Node} (hx : x ∈ cells es) :
    x.2.forward.length = maxLevel := by
  induction es with
  | nil => cases hx
  | cons e es ih =>
    rcases List.mem_cons.mp hx with h | h
    · subst h; simp [cell]
    · exact ih h

/-- A reachable list is the new list, or has level `maxLevel`. -/
theorem reachable_new_or_max {sl : SkipList} (h : Reachable sl) :
    sl = NewSkipList ∨ sl.level = maxLevel := by
  induction h with
  | new => exact Or.inl rfl
  | @put sl sl1 key pos old rnd hr hput _ =>
    obtain ⟨es, hinv⟩ := reachable_inv hr
    obtain ⟨s, o, h1, h2⟩ := put_level hinv key pos rnd
    rw [h1] at hput
    cases hput
    exact Or.inr h2
  | @delete sl sl1 key old existed hr hdel ih =>
    obtain ⟨es, hinv⟩ := reachable_inv hr
    obtain ⟨s, o, ex, h1, h2⟩ := delete_level hinv key
    rw [h1] at hdel
    cases hdel
    rcases ih with h3 | h3
    · subst h3
      rw [delete_absent_spec inv_new key (fun e r hc => by cases hc)] at h1
      cases h1
      exact Or.inl rfl
    · exact Or.inr (h2.trans h3)

/-- C20 (degenerate levels): `randomLevel` returns `maxLevel` whatever the draws
are, and so in every reachable list: the chain from the head is the same list of
nodes at every level `0 .. 17`, namely the level-0 chain; every node of it has
exactly 18 forward links; the list is the new list or has level 18, and after
any `Put` (on a new list a `Put` is an insertion) the level is 18. -/
theorem levels_degenerate (sl : SkipList) (h : Reachable sl) :
    (∀ rnd, randomLevel rnd = 18) ∧
    (∃ ch, chainAt sl 0 = some ch ∧ (∀ i, i < 18 → chainAt sl i = some ch) ∧
      (∀ x ∈ ch, x.2.forward.length = 18)) ∧
    (sl = NewSkipList ∨ sl.level = 18) ∧
    (∀ K P rnd, ∃ sl1 old, Put sl K P rnd = some (sl1, old) ∧ sl1.level = 18) := by
  obtain ⟨es, hinv⟩ := reachable_inv h
  refine ⟨fun _ => rfl, ⟨cells es, chainAt_spec hinv (by decide),
    fun i hi => chainAt_spec hinv hi, fun x hx => cells_forward hx⟩,
    reachable_new_or_max h, fun K P rnd => put_level hinv K P rnd⟩

theorem levels_degenerate_witness :
    Reachable demoTwo ∧
    ((∀ rnd, randomLevel rnd = 18) ∧
    (∃ ch, chainAt demoTwo 0 = some ch ∧ (∀ i, i < 18 → chainAt demoTwo i = some ch) ∧
      (∀ x ∈ ch, x.2.forward.length = 18)) ∧
    (demoTwo = NewSkipList ∨ demoTwo.level = 18) ∧
    (∀ K P rnd, ∃ sl1 old, Put demoTwo K P rnd = some (sl1, old) ∧ sl1.level = 18)) :=
  ⟨demoTwo_reachable, levels_degenerate demoTwo demoTwo_reachable⟩

/-! ## The level draw -/

/-- The loop of `randomLevel` does compute the geometric level: started at
`level` on draw `n`, after `k` draws that pass the trial, followed by one that
fails unless the cap is reached first, `level` is `level + k` capped at `maxLevel`. -/
theorem randomLevelLoop_spec (rnd : Nat → Nat) :
    ∀ (fuel n level k : Nat), level ≤ maxLevel →
      (∀ i, i < k → levelTrial (rnd (n + i)) = true) →
      (k < maxLevel - level → levelTrial (rnd (n + k)) = false) →
      min k (maxLevel - level) < fuel →
      randomLevelLoop rnd fuel n level = min (level + k) maxLevel := by
  intro fuel
  induction fuel with
  | zero => intro n level k _ _ _ hf; omega
  | succ fuel ih =>
    intro n level k hl hp hfail hf
    cases k with
    | zero =>
      by_cases hc : level < maxLevel
      · have h1 := hfail (by omega)
        simp only [Nat.add_zero] at h1
        simp only [randomLevelLoop, h1, Bool.false_and, Bool.false_eq_true, if_false]
        omega
      · simp only [randomLevelLoop, hc, decide_False, Bool.and_false, Bool.false_eq_true,
          if_false]
        omega
    | succ k =>
      by_cases hc : level < maxLevel
      · have h1 := hp 0 (by omega)
        simp only [Nat.add_zero] at h1
        simp only [randomLevelLoop, h1, hc, decide_True, Bool.and_self, if_true]
        rw [ih (n + 1) (level + 1) k (by omega)
          (fun i hi => by have := hp (i + 1) (by omega); rwa [← Nat.add_assoc, Nat.add_right_comm] at this)
          (fun hk => by
            have := hfail (by omega)
            rwa [← Nat.add_assoc, Nat.add_right_comm] at this)
          (by omega)]
        omega
      · simp only [randomLevelLoop, hc, decide_False, Bool.and_false, Bool.false_eq_true,
          if_false]
        omega

/-- The level that the loop of `randomLevel` computes: 1 plus the number `k` of
leading draws that pass the trial, capped at `maxLevel`. -/
theorem randomLevelComputed_spec (rnd : Nat → Nat) (k : Nat)
    (hp : ∀ i, i < k → levelTrial (rnd i) = true)
    (hfail : k < maxLevel - 1 → levelTrial (rnd k) = false) :
    randomLevelComputed rnd = min (1 + k) maxLevel := by
  unfold randomLevelComputed
  exact randomLevelLoop_spec rnd maxLevel 0 1 k (by decide)
    (fun i hi => by simpa using hp i hi) (fun hk => by simpa using hfail hk)
    (by
      have h : maxLevel = 18 := rfl
      omega)

/-- C15, the code at a failing input: on a first draw of 40000, which fails the
trial, the loop of `randomLevel` ends with `level = 1`, and `randomLevel` returns
18; it returns 18 on every sequence of draws. -/
theorem randomLevel_returns_maxLevel :
    levelTrial 40000 = false ∧ randomLevelComputed (fun _ => 40000) = 1 ∧
    randomLevel (fun _ => 40000) = 18 ∧ ∀ rnd, randomLevel rnd = 18 :=
  ⟨by decide, by decide, by decide, fun _ => rfl⟩

/-! ## The construction of the iterator -/

/-- Once `current` is not nil the copy loop never returns: its body does not
move `current`, so the test `current != nil` stays true. -/
theorem copyLoop_never_returns (heap : List Node) (c : Nat) :
    ∀ (fuel : Nat) (values : List (Option Item)), copyLoop heap fuel (some c) values = none := by
  intro fuel
  induction fuel with
  | zero => intro values; rfl
  | succ fuel ih =>
    intro values
    simp only [copyLoop]
    cases heap[c]? with
    | none => rfl
    | some nd =>
      cases hv : nd.value with
      | none => simp only [hv]
      | some pos => simp only [hv]; exact ih _

/-- On a list with at least one node the construction of an iterator never
returns, whatever the direction. -/
theorem iterator_never_returns {sl : SkipList} {es : List Entry} (hinv : Inv sl es)
    (hne : es ≠ []) (fuel : Nat) (reverse : Bool) : Iterator fuel sl reverse = none := by
  obtain ⟨e, r, rfl⟩ := List.exists_cons_of_ne_nil hne
  have h1 : sl.heap[sl.head]? = some (cell (headEntry sl) (some e.id)) := hinv.linked.1
  have h2 : ¬ Size sl < 0 := by
    show ¬ sl.length < 0
    rw [hinv.size]; exact not_lt.mpr (Int.natCast_nonneg _)
  simp only [Iterator, newSkipListIterator, h2, if_false, h1,
    cell_forward_get _ _ (show 0 < maxLevel by decide), copyLoop_never_returns]

/-- On a list without nodes the construction returns an iterator over the empty
sequence. -/
theorem iterator_of_empty {sl : SkipList} (hinv : Inv sl []) (fuel : Nat) (reverse : Bool) :
    Iterator fuel sl reverse = some ⟨0, reverse, []⟩ := by
  have h1 : sl.heap[sl.head]? = some (cell (headEntry sl) none) := hinv.linked.1
  have h2 : Size sl = 0 := hinv.size
  cases reverse <;> cases fuel <;>
    simp [Iterator, newSkipListIterator, h2, h1,
      cell_forward_get _ _ (show 0 < maxLevel by decide), copyLoop, reverseSlice, reverseLoop]

/-- C11, the code at a failing input: on the list that holds the one entry
("b", 1), where `Size()` is 1 and the level-0 chain is that one node,
`Iterator(false)` does not return, whatever number of rounds the copy loop is
given; before the loop the slice already holds `Size()` nil elements. -/
theorem iterator_forward_never_built :
    Size demoOne = 1 ∧
    chainAt demoOne 0 = some [(1, ⟨[98], some (some 1), List.replicate 18 none⟩)] ∧
    (∀ fuel, Iterator fuel demoOne false = none) ∧
    List.replicate (Size demoOne).toNat (none : Option Item) = [none] := by
  obtain ⟨es, hinv⟩ := reachable_inv demoOne_reachable
  have hne : es ≠ [] := by
    intro hc
    subst hc
    have h := hinv.size
    revert h
    decide
  exact ⟨by decide, by decide, fun fuel => iterator_never_returns hinv hne fuel false,
    by decide⟩

/-- C12, the code at a failing input: on the list that holds the two entries
("", 2) and ("b", 1), where `Size()` is 2, `Iterator(reverse)` returns for no
number of rounds of the copy loop, in either direction: the copy loop is not
bounded by `Size()`. -/
theorem iterator_copy_unbounded :
    Size demoTwo = 2 ∧ ∀ fuel reverse, Iterator fuel demoTwo reverse = none := by
  obtain ⟨es, hinv⟩ := reachable_inv demoTwo_reachable
  have hne : es ≠ [] := by
    intro hc
    subst hc
    have h := hinv.size
    revert h
    decide
  exact ⟨by decide, fun fuel reverse => iterator_never_returns hinv hne fuel reverse⟩

/-- C13, the code on the scenario of the claim: after `Put("a", P1)` and
`Put("b", P2)` on a new list, both of which insert, the call `Iterator(false)`
does not return, so no iterator exists whose traversal could be compared with
the later `Put("c", P3)` and `Delete("a")`. -/
theorem snapshot_never_taken (P1 P2 : LogRecordPosPtr) (rnd1 rnd2 : Nat → Nat) :
    ∃ s1 s2, Put NewSkipList [97] P1 rnd1 = some (s1, none) ∧
      Put s1 [98] P2 rnd2 = some (s2, none) ∧ ∀ fuel, Iterator fuel s2 false = none := by
  obtain ⟨heap1, h1, h2⟩ := put_insert_spec inv_new [97] P1 rnd1 (fun e r hc => by cases hc)
  have h3 : lower [97] ([] : List Entry) ++
      ⟨NewSkipList.heap.length, [97], some P1⟩ :: upper [97] [] =
      [⟨NewSkipList.heap.length, [97], some P1⟩] := rfl
  rw [h3] at h2
  obtain ⟨heap2, h4, h5⟩ := put_insert_spec h2 [98] P2 rnd2
    (absent_of_keys_ne (fun e he => by
      rw [List.mem_singleton] at he
      subst he
      show ([97] : List Byte) ≠ [98]
      decide))
  exact ⟨_, _, h1, h4, fun fuel => iterator_never_returns h5 (by simp) fuel false⟩

/-! ## The cursor -/

theorem wrapInt_id {x : Int} (h1 : minInt ≤ x) (h2 : x ≤ maxInt) : wrapInt x = x := by
  unfold wrapInt
  unfold minInt at h1
  unfold maxInt at h2
  omega

theorem valid_at (k : Nat) (rev : Bool) (items : List Item) :
    skiplistIterator.Valid ⟨(k : Int), rev, items.map some⟩ = decide (k < items.length) := by
  simp [skiplistIterator.Valid]

theorem current_at (k : Nat) (rev : Bool) (items : List Item) (hk : k < items.length) :
    skiplistIterator.current ⟨(k : Int), rev, items.map some⟩ = Except.ok items[k] := by
  have h1 : ¬ (k : Int) < 0 := not_lt.mpr (Int.natCast_nonneg _)
  simp only [skiplistIterator.current, h1, if_false, Int.toNat_ofNat, List.getElem?_map,
    List.getElem?_eq_getElem hk, Option.map_some']

theorem next_at (k : Nat) (rev : Bool) (vs : List (Option Item))
    (hk : ((k + 1 : Nat) : Int) ≤ maxInt) :
    skiplistIterator.Next ⟨(k : Int), rev, vs⟩ = ⟨((k + 1 : Nat) : Int), rev, vs⟩ := by
  have h1 : wrapInt ((k : Int) + 1) = ((k + 1 : Nat) : Int) := by
    have h2 : ((k : Int) + 1) = ((k + 1 : Nat) : Int) := by push_cast; rfl
    rw [h2]
    exact wrapInt_id (by unfold minInt; omega) hk
  simp only [skiplistIterator.Next, h1]

/-- The traversal loop, started on cursor `k` of a sequence without nil elements,
reads the elements from `k` on, in order, and needs one round for each. -/
theorem traverseLoop_spec (items : List Item) (rev : Bool)
    (hb : (items.length : Int) ≤ maxInt) :
    ∀ (fuel k : Nat), k ≤ items.length → items.length - k ≤ fuel →
      traverseLoop fuel ⟨(k : Int), rev, items.map some⟩ =
        some ((items.drop k).map (fun x => (x.key, x.pos))) := by
  intro fuel
  induction fuel with
  | zero =>
    intro k hk hf
    have h1 : k = items.length := by omega
    subst h1
    simp [traverseLoop, valid_at]
  | succ fuel ih =>
    intro k hk hf
    by_cases hlt : k < items.length
    · have h1 := ih (k + 1) (by omega) (by omega)
      have h2 := next_at k rev (items.map some) (by omega)
      simp only [traverseLoop, valid_at, hlt, decide_True, if_true, skiplistIterator.Key,
        skiplistIterator.Value, current_at k rev items hlt, h2, h1, Option.map_some']
      rw [List.drop_eq_getElem_cons hlt]
      rfl
    · have h1 : k = items.length := by omega
      subst h1
      simp [traverseLoop, valid_at]

/-- With fewer rounds than elements left, the traversal loop is not done. -/
theorem traverseLoop_short (items : List Item) (rev : Bool)
    (hb : (items.length : Int) ≤ maxInt) :
    ∀ (fuel k : Nat), fuel + k < items.length →
      traverseLoop fuel ⟨(k : Int), rev, items.map some⟩ = none := by
  intro fuel
  induction fuel with
  | zero =>
    intro k hk
    have hlt : k < items.length := by omega
    simp [traverseLoop, valid_at, hlt]
  | succ fuel ih =>
    intro k hk
    have hlt : k < items.length := by omega
    have h1 := ih (k + 1) (by omega)
    have h2 := next_at k rev (items.map some) (by omega)
    simp only [traverseLoop, valid_at, hlt, decide_True, if_true, skiplistIterator.Key,
      skiplistIterator.Value, current_at k rev items hlt, h2, h1, Option.map_none']

theorem fullTraversal_spec (c : Int) (rev : Bool) (items : List Item) (fuel : Nat)
    (hb : (items.length : Int) ≤ maxInt) (hf : items.length ≤ fuel) :
    fullTraversal fuel ⟨c, rev, items.map some⟩ =
      some (items.map (fun x => (x.key, x.pos))) := by
  have h := traverseLoop_spec items rev hb fuel 0 (Nat.zero_le _) (by omega)
  simpa [fullTraversal, skiplistIterator.Rewind] using h

/-- C17 as stated fails on the code: `Next()` called on the cursor `maxInt` does
not add 1, it wraps the cursor around to `minInt`. -/
theorem next_wraps_at_maxInt :
    (skiplistIterator.Next ⟨maxInt, false, aceValues⟩).currIndex = minInt ∧
    (skiplistIterator.Next ⟨maxInt, false, aceValues⟩).currIndex ≠ maxInt + 1 := by
  decide

/-- C17 (full traversal), amended: for every iterator whose materialized sequence
has `n` elements (at most `maxInt`, as every slice has), none of them nil, and
whatever its cursor is, the loop `Rewind(); for Valid() { Key(), Value(); Next() }`
returns after exactly `n` rounds (`n` rounds are enough, fewer are not) and reads
the elements `vs[0], ..., vs[n-1]` in this order, each once; `Rewind()` sets the
cursor to 0; `Next()` sets the cursor to the wrapped value of cursor + 1, which
is cursor + 1 exactly for every cursor below `maxInt`; neither changes the
sequence. -/
theorem full_traversal (it : skiplistIterator) (items : List Item)
    (hv : it.values = items.map some) (hb : (items.length : Int) ≤ maxInt) :
    (∀ fuel, items.length ≤ fuel →
      fullTraversal fuel it = some (items.map (fun x => (x.key, x.pos)))) ∧
    (∀ fuel, fuel < items.length → fullTraversal fuel it = none) ∧
    it.Rewind.currIndex = 0 ∧ it.Next.currIndex = wrapInt (it.currIndex + 1) ∧
    (minInt ≤ it.currIndex → it.currIndex < maxInt →
      it.Next.currIndex = it.currIndex + 1) ∧
    it.Rewind.values = it.values ∧ it.Next.values = it.values := by
  obtain ⟨c, rev, vs⟩ := it
  simp only at hv
  subst hv
  refine ⟨fun fuel hf => fullTraversal_spec c rev items fuel hb hf, ?_, rfl, rfl, ?_, rfl, rfl⟩
  · intro fuel hf
    have h := traverseLoop_short items rev hb fuel 0 (by omega)
    simpa [fullTraversal, skiplistIterator.Rewind] using h
  · intro h1 h2
    have h3 : minInt ≤ c := h1
    have h4 : c < maxInt := h2
    show wrapInt (c + 1) = c + 1
    exact wrapInt_id (by omega) (by omega)

theorem full_traversal_witness :
    aceValues = List.map some [⟨[97], some 1⟩, ⟨[99], some 2⟩, ⟨[101], some 3⟩] ∧
    (([⟨[97], some 1⟩, ⟨[99], some 2⟩, ⟨[101], some 3⟩] : List Item).length : Int) ≤ maxInt ∧
    fullTraversal 3 ⟨7, false, aceValues⟩ =
      some [([97], some 1), ([99], some 2), ([101], some 3)] ∧
    fullTraversal 2 ⟨7, false, aceValues⟩ = none ∧
    (skiplistIterator.Next ⟨7, false, aceValues⟩).currIndex = 7 + 1 :=
  ⟨rfl, by decide,
    (full_traversal ⟨7, false, aceValues⟩ [⟨[97], some 1⟩, ⟨[99], some 2⟩, ⟨[101], some 3⟩]
      rfl (by decide)).1 3 (by decide),
    (full_traversal ⟨7, false, aceValues⟩ [⟨[97], some 1⟩, ⟨[99], some 2⟩, ⟨[101], some 3⟩]
      rfl (by decide)).2.1 2 (by decide),
    (full_traversal ⟨7, false, aceValues⟩ [⟨[97], some 1⟩, ⟨[99], some 2⟩, ⟨[101], some 3⟩]
      rfl (by decide)).2.2.2.2.1 (by decide) (by decide)⟩

theorem seek_cursor {s s1 : skiplistIterator} {k : List Byte} (h : s.Seek k = some s1) :
    ∃ n : Nat, s1 = { s with currIndex := (n : Int) } := by
  unfold skiplistIterator.Seek at h
  split at h
  · split at h
    · cases h
    · rename_i n _
      exact ⟨n, (Option.some.inj h).symm⟩
  · split at h
    · cases h
    · rename_i n _
      exact ⟨n, (Option.some.inj h).symm⟩

theorem iterBounded_cursor {vs : List (Option Item)} {rev : Bool} {s : skiplistIterator}
    (h : IterBounded vs rev s) : 0 ≤ s.currIndex ∧ s.values = vs := by
  induction h with
  | init => exact ⟨le_refl _, rfl⟩
  | rewind _ ih => exact ⟨le_refl _, ih.2⟩
  | @next s _ hlt ih =>
    refine ⟨?_, ih.2⟩
    show 0 ≤ wrapInt (s.currIndex + 1)
    have h0 := ih.1
    rw [wrapInt_id (by unfold minInt; omega) (by omega)]
    omega
  | seek _ hs ih =>
    obtain ⟨n, rfl⟩ := seek_cursor hs
    exact ⟨Int.natCast_nonneg _, ih.2⟩

/-- Repeated `Next` calls from the construction reach every cursor from 0 to
`maxInt`. -/
theorem iterReachable_upto (vs : List (Option Item)) (rev : Bool) :
    ∀ n : Nat, (n : Int) ≤ maxInt → IterReachable vs rev ⟨(n : Int), rev, vs⟩ := by
  intro n
  induction n with
  | zero => intro _; exact IterReachable.init
  | succ n ih =>
    intro hn
    have h1 := IterReachable.next (ih (by push_cast at hn; omega))
    rw [next_at n rev vs hn] at h1
    exact h1

/-- C18 as stated fails on the code: `maxInt + 1` calls of `Next()` after the
construction leave the cursor on `minInt`, which is negative; there `Valid()` is
true and `Key()` faults with an index out of range. -/
theorem valid_true_on_wrapped_cursor :
    IterReachable aceValues false ⟨minInt, false, aceValues⟩ ∧ minInt < 0 ∧
    skiplistIterator.Valid ⟨minInt, false, aceValues⟩ = true ∧
    skiplistIterator.Key ⟨minInt, false, aceValues⟩ = Except.error Fault.indexOutOfRange := by
  refine ⟨?_, by decide, by decide, rfl⟩
  have h1 := IterReachable.next
    (iterReachable_upto aceValues false 9223372036854775807 (by decide))
  have h2 : skiplistIterator.Next ⟨((9223372036854775807 : Nat) : Int), false, aceValues⟩ =
      ⟨minInt, false, aceValues⟩ := by decide
  rw [h2] at h1
  exact h1

/-- C18 (Valid guards Key and Value), amended: in every iterator state reachable
from a construction (cursor 0) by `Rewind`, `Next` and `Seek` calls in which
`Next` is never called on the cursor `maxInt`, the cursor is not negative and the
sequence is the one of the construction; `Valid()` is true if and only if
`0 <= cursor < len(values)`; and when `Valid()` is true the element read by
`Key()` and `Value()` exists: neither faults with an index out of range. -/
theorem valid_guards_reads (vs : List (Option Item)) (rev : Bool) (s : skiplistIterator)
    (h : IterBounded vs rev s) :
    0 ≤ s.currIndex ∧ s.values = vs ∧
    (s.Valid = true ↔ 0 ≤ s.currIndex ∧ s.currIndex < (s.values.length : Int)) ∧
    (s.Valid = true →
      (∃ slot, s.values[s.currIndex.toNat]? = some slot) ∧
      s.Key ≠ Except.error Fault.indexOutOfRange ∧
      s.Value ≠ Except.error Fault.indexOutOfRange) := by
  obtain ⟨h0, hvs⟩ := iterBounded_cursor h
  refine ⟨h0, hvs, ?_, ?_⟩
  · simp only [skiplistIterator.Valid, decide_eq_true_eq]
    exact ⟨fun hlt => ⟨h0, hlt⟩, fun hb => hb.2⟩
  · intro hvalid
    simp only [skiplistIterator.Valid, decide_eq_true_eq] at hvalid
    have hlt : s.currIndex.toNat < s.values.length := by omega
    have hneg : ¬ s.currIndex < 0 := not_lt.mpr h0
    refine ⟨⟨_, List.getElem?_eq_getElem hlt⟩, ?_, ?_⟩
    · simp only [skiplistIterator.Key, skiplistIterator.current, hneg, if_false,
        List.getElem?_eq_getElem hlt]
      cases s.values[s.currIndex.toNat] <;> simp
    · simp only [skiplistIterator.Value, skiplistIterator.current, hneg, if_false,
        List.getElem?_eq_getElem hlt]
      cases s.values[s.currIndex.toNat] <;> simp

theorem valid_guards_reads_witness :
    IterBounded aceValues false ⟨2, false, aceValues⟩ ∧
    (0 : Int) ≤ 2 ∧
    (skiplistIterator.Valid ⟨2, false, aceValues⟩ = true ↔
      (0 : Int) ≤ 2 ∧ (2 : Int) < (aceValues.length : Int)) ∧
    skiplistIterator.Key ⟨2, false, aceValues⟩ ≠ Except.error Fault.indexOutOfRange :=
  have h1 : IterBounded aceValues false ⟨1, false, aceValues⟩ :=
    IterBounded.next (IterBounded.rewind IterBounded.init) (by decide)
  have hr : IterBounded aceValues false ⟨2, false, aceValues⟩ :=
    IterBounded.seek h1
      (show skiplistIterator.Seek ⟨1, false, aceValues⟩ [100] = some ⟨2, false, aceValues⟩
        from by decide)
  ⟨hr, (valid_guards_reads aceValues false ⟨2, false, aceValues⟩ hr).1,
    (valid_guards_reads aceValues false ⟨2, false, aceValues⟩ hr).2.2.1,
    ((valid_guards_reads aceValues false ⟨2, false, aceValues⟩ hr).2.2.2 (by decide)).2.1⟩

/-! ## The reversal -/

theorem get_mid {α : Type} (A : List α) (x : α) (R : List α) :
    (A ++ x :: R)[A.length]? = some x := by
  rw [List.getElem?_append_right (le_refl _)]
  simp

theorem set_mid {α : Type} (A : List α) (x y : α) (R : List α) :
    (A ++ x :: R).set A.length y = A ++ y :: R := by
  induction A with
  | nil => rfl
  | cons a A ih => simp only [List.cons_append, List.length_cons, List.set_cons_succ, ih]

/-- The swap loop, started on the two ends of the middle part `M` of
`A ++ M ++ B`, reverses `M` in place and leaves `A` and `B` as they are. -/
theorem reverseLoop_spec {α : Type} :
    ∀ (fuel : Nat) (M A B : List α) (j : Int), M.length ≤ fuel →
      j = (A.length : Int) + (M.length : Int) - 1 →
      reverseLoop fuel A.length j (A ++ M ++ B) = some (A ++ M.reverse ++ B) := by
  intro fuel
  induction fuel with
  | zero =>
    intro M A B j hf hj
    have h1 : M = [] := List.length_eq_zero.mp (by omega)
    subst h1
    have h2 : ¬ (A.length : Int) < j := by simp at hj; omega
    simp [reverseLoop, h2]
  | succ fuel ih =>
    intro M A B j hf hj
    cases M with
    | nil =>
      have h2 : ¬ (A.length : Int) < j := by simp at hj; omega
      simp [reverseLoop, h2]
    | cons a T =>
      rcases List.eq_nil_or_concat T with h1 | ⟨M1, b, h1⟩
      · subst h1
        have h2 : ¬ (A.length : Int) < j := by simp at hj; omega
        simp [reverseLoop, h2]
      · rw [List.concat_eq_append] at h1
        subst h1
        have hlen : (a :: (M1 ++ [b])).length = M1.length + 2 := by simp
        rw [hlen] at hf hj
        have h2 : (A.length : Int) < j := by omega
        have hjn : j.toNat = (A ++ a :: M1).length := by
          simp only [List.length_append, List.length_cons]; omega
        have e1 : A ++ a :: (M1 ++ [b]) ++ B = A ++ a :: (M1 ++ b :: B) := by simp
        have e2 : A ++ a :: (M1 ++ [b]) ++ B = (A ++ a :: M1) ++ b :: B := by simp
        have g1 : (A ++ a :: (M1 ++ [b]) ++ B)[A.length]? = some a := by
          rw [e1]; exact get_mid A a _
        have g2 : (A ++ a :: (M1 ++ [b]) ++ B)[j.toNat]? = some b := by
          rw [e2, hjn]; exact get_mid _ b B
        have s1 : ((A ++ a :: (M1 ++ [b]) ++ B).set A.length b).set j.toNat a =
            (A ++ [b]) ++ M1 ++ ([a] ++ B) := by
          rw [e1, set_mid]
          have e3 : A ++ b :: (M1 ++ b :: B) = (A ++ b :: M1) ++ b :: B := by simp
          have e4 : j.toNat = (A ++ b :: M1).length := by
            rw [hjn]; simp
          rw [e3, e4, set_mid]
          simp
        have h3 := ih M1 (A ++ [b]) ([a] ++ B) (j - 1) (by omega)
          (by simp only [List.length_append, List.length_singleton]; push_cast; omega)
        have h4 : (A ++ [b]).length = A.length + 1 := by simp
        rw [h4] at h3
        simp only [reverseLoop, if_pos h2, g1, g2, s1, h3]
        simp

/-- The closure `reverseSlice` returns, and returns the reversed sequence. -/
theorem reverseSlice_eq {α : Type} (vs : List α) : reverseSlice vs = some vs.reverse := by
  have h := reverseLoop_spec vs.length vs [] [] ((vs.length : Int) - 1) (le_refl _)
    (by simp)
  simpa [reverseSlice] using h

/-- C19 (reversal step): the in-place reversal of the iterator construction
returns, for every sequence `vs` of length `n`, the sequence of the same length
whose element `i` is `vs[n-1-i]`; it has the same elements, and applied twice it
gives `vs` back. So a sequence with strictly increasing keys becomes one with
strictly decreasing keys, and the full traversal of the reversed sequence reads
the exact reverse of what the full traversal of the sequence itself reads. -/
theorem reversal_step (vs : List (Option Item)) :
    ∃ r, reverseSlice vs = some r ∧ r.length = vs.length ∧
      (∀ i, i < vs.length → r[i]? = vs[vs.length - 1 - i]?) ∧
      r.Perm vs ∧ reverseSlice r = some vs ∧
      (∀ items : List Item, vs = items.map some →
        items.Pairwise (fun a b => bytesCompare a.key b.key < 0) →
        ∃ ritems : List Item, r = ritems.map some ∧
          ritems.Pairwise (fun a b => bytesCompare b.key a.key < 0)) ∧
      (∀ (items : List Item) (fuel : Nat) (c1 c2 : Int), vs = items.map some →
        (items.length : Int) ≤ maxInt → items.length ≤ fuel →
        ∃ reads, fullTraversal fuel ⟨c1, false, vs⟩ = some reads ∧
          fullTraversal fuel ⟨c2, true, r⟩ = some reads.reverse) := by
  refine ⟨vs.reverse, reverseSlice_eq vs, List.length_reverse vs, ?_, List.reverse_perm vs,
    ?_, ?_, ?_⟩
  · intro i hi
    rw [List.getElem?_reverse hi]
  · rw [reverseSlice_eq, List.reverse_reverse]
  · intro items hv hs
    refine ⟨items.reverse, by rw [hv, List.map_reverse], ?_⟩
    exact List.pairwise_reverse.mpr hs
  · intro items fuel c1 c2 hv hb hf
    refine ⟨items.map (fun x => (x.key, x.pos)), ?_, ?_⟩
    · rw [hv]; exact fullTraversal_spec c1 false items fuel hb hf
    · rw [hv, ← List.map_reverse, ← List.map_reverse]
      exact fullTraversal_spec c2 true items.reverse fuel (by simpa using hb)
        (by simpa using hf)

theorem reversal_step_witness :
    ∃ r, reverseSlice aceValues = some r ∧ r = ecaValues ∧
      (∃ ritems : List Item, r = ritems.map some ∧
          ritems.Pairwise (fun a b => bytesCompare b.key a.key < 0)) ∧
      (∃ reads, fullTraversal 3 ⟨0, false, aceValues⟩ = some reads ∧
          fullTraversal 3 ⟨0, true, r⟩ = some reads.reverse) := by
  obtain ⟨r, h1, h2, h3, h4, h5, h6, h7⟩ := reversal_step aceValues
  refine ⟨r, h1, ?_,
    h6 [⟨[97], some 1⟩, ⟨[99], some 2⟩, ⟨[101], some 3⟩] rfl (by decide),
    h7 [⟨[97], some 1⟩, ⟨[99], some 2⟩, ⟨[101], some 3⟩] 3 0 0 rfl (by decide) (by decide)⟩
  have h8 : reverseSlice aceValues = some ecaValues := by decide
  rw [h8] at h1
  exact (Option.some.inj h1).symm

end Hades
